import Mathlib

/-!
Verification of selectdefaultapplication: `Widget::loadDesktopFile` and `Widget::setDefault`.

A shallow embedding of the two non-GUI routines of `src/widget.cpp`:

* `Widget::loadDesktopFile` reads one `.desktop` descriptor and folds it into the
  application index (`m_desktopFileNames`, `m_applicationNames`, `m_applicationIcons`,
  `m_supportedMimetypes`, `m_applications`);
* `Widget::setDefault` merges a selection of MIME types into `mimeapps.list`.

Text is modelled as `List Char`: a file's content is its decoded character sequence, and the
byte-level `QByteArray` operations (`trimmed`, `simplified`, `split`, `startsWith`) act on it with
the ASCII whitespace set that Qt uses for byte arrays.  `QSet<QString>` arguments are modelled by
the list of their elements in iteration order.
-/

namespace SelectDefaultApplication

/-- Text (a `QString` or the decoded content of a `QByteArray`). -/
abbrev Str := List Char

/-! ## Qt text primitives -/

/-- Whitespace of `QByteArray::trimmed` and `QByteArray::simplified`:
the characters `\t`, `\n`, `\v`, `\f`, `\r` and the space. -/
def isSpace (c : Char) : Bool :=
  c = ' ' || c = '\t' || c = '\n' || c = Char.ofNat 11 || c = Char.ofNat 12 || c = '\r'

/-- Whitespace of `QChar::isSpace`, used by `QString::trimmed`: the ASCII whitespace plus
U+0085 and the Unicode separator categories Zs, Zl and Zp. -/
def qcharIsSpace (c : Char) : Bool :=
  isSpace c || c.toNat = 0x85 || c.toNat = 0xA0 || c.toNat = 0x1680 ||
  (0x2000 ≤ c.toNat && c.toNat ≤ 0x200A) || c.toNat = 0x2028 || c.toNat = 0x2029 ||
  c.toNat = 0x202F || c.toNat = 0x205F || c.toNat = 0x3000

/-- Removal of leading and trailing characters satisfying `sp`. -/
def trimBy (sp : Char → Bool) (s : Str) : Str :=
  ((s.dropWhile sp).reverse.dropWhile sp).reverse

/-- The function `QByteArray::trimmed`. -/
def trimmed (s : Str) : Str := trimBy isSpace s

/-- The function `QString::trimmed`. -/
def qtrimmed (s : Str) : Str := trimBy qcharIsSpace s

/-- Collapse every run of whitespace into one space and drop a trailing run. -/
def collapse : Str → Str
  | [] => []
  | c :: cs =>
    if isSpace c then
      match collapse cs with
      | [] => []
      | d :: r => if d = ' ' then d :: r else ' ' :: d :: r
    else c :: collapse cs

/-- The function `QByteArray::simplified`: whitespace is stripped from both ends and every
internal run of whitespace becomes a single space. -/
def simplified (s : Str) : Str := collapse (s.dropWhile isSpace)

/-- The function `startsWith`. -/
def startsWith (s p : Str) : Bool := p.isPrefixOf s

/-- The function `contains(char)`. -/
def containsChar (s : Str) (c : Char) : Bool := s.any (fun d => d = c)

/-- The function `contains(str, Qt::CaseInsensitive)` for an all-lowercase ASCII needle. -/
def containsCI : Str → Str → Bool
  | [], p => p.isEmpty
  | c :: cs, p => p.isPrefixOf ((c :: cs).map Char.toLower) || containsCI cs p

/-- The function `indexOf(char)`: position of the first occurrence, `-1` when there is none. -/
def indexOf (s : Str) (c : Char) : Int :=
  if containsChar s c then ((s.takeWhile (fun d => d ≠ c)).length : Int) else -1

/-- The call `remove(0, n)`: the first `n` characters are removed. -/
def remove0 (s : Str) (n : Int) : Str := s.drop n.toNat

/-- The function `split(sep)` with the default `KeepEmptyParts`: the result is never empty. -/
def split (sep : Char) : Str → List Str
  | [] => [[]]
  | c :: cs =>
    if c = sep then [] :: split sep cs
    else
      match split sep cs with
      | [] => [[c]]
      | p :: ps => (c :: p) :: ps

/-- The function `split(sep, QString::SkipEmptyParts)`. -/
def splitSkipEmpty (sep : Char) (s : Str) : List Str :=
  (split sep s).filter (fun p => !p.isEmpty)

/-- The function `first()` of a list of strings. -/
def first (l : List Str) : Str := l.headD []

/-- The successive results of `readLine()` until `atEnd()`: every line keeps its terminating
newline, and a last line without newline is returned as it is. -/
def readLines : Str → List Str
  | [] => []
  | c :: cs =>
    if c = '\n' then [c] :: readLines cs
    else
      match readLines cs with
      | [] => [[c]]
      | l :: ls => (c :: l) :: ls

/-! ## MIME database -/

/-- A `QMimeType`: it is valid exactly when its name is not empty, and the invalid type is
the one with the empty name. -/
structure QMimeType where
  name : Str
deriving DecidableEq

/-- The function `QMimeType::isValid`. -/
def QMimeType.isValid (m : QMimeType) : Bool := !m.name.isEmpty

/-- The MIME database `m_mimeDb`, an external lookup service. -/
structure QMimeDatabase where
  mimeTypeForName : Str → QMimeType

/-! ## Containers -/

/-- A `QHash<QString, V>` as an association list with one entry per key. -/
abbrev QHash (V : Type) := List (Str × V)

/-- The function `QHash::contains`. -/
def QHash.contains {V : Type} (m : QHash V) (k : Str) : Bool := (List.lookup k m).isSome

/-- The function `QHash::value`: the default-constructed value when the key is absent. -/
def QHash.value {V : Type} [Inhabited V] (m : QHash V) (k : Str) : V :=
  (List.lookup k m).getD default

/-- The assignment `m[k] = v`. -/
def QHash.insert {V : Type} (m : QHash V) (k : Str) (v : V) : QHash V :=
  (k, v) :: m.filter (fun p => p.1 ≠ k)

/-- The function `QSet::insert` on the list of elements. -/
def QSet.insert (s : List Str) (x : Str) : List Str := if x ∈ s then s else s ++ [x]

/-! ## `Widget::setDefault` -/

/-- The header line of the section that `setDefault` rewrites. -/
def defaultApplicationsHeader : Str := "[Default Applications]".toList

/-- Local variables of the read loop of `setDefault`. -/
structure ReadState where
  inCorrectGroup : Bool
  existingContent : List Str
  existingAssociations : List Str
deriving DecidableEq

/-- One iteration of the read loop of `setDefault` on the result `raw` of `readLine()`. -/
def setDefaultStep (db : QMimeDatabase) (mimetypes unselectedMimetypes : List Str)
    (st : ReadState) (raw : Str) : ReadState :=
  let line := trimmed raw
  if line.isEmpty then st
  else if startsWith line ['['] then
    let inCorrectGroup := decide (line = defaultApplicationsHeader)
    { inCorrectGroup := inCorrectGroup
      existingContent :=
        if !inCorrectGroup then st.existingContent ++ [line] else st.existingContent
      existingAssociations := st.existingAssociations }
  else if !st.inCorrectGroup then
    { st with existingContent := st.existingContent ++ [line] }
  else if !containsChar line '=' then
    { st with existingAssociations := st.existingAssociations ++ [line] }
  else
    let mimetype := (db.mimeTypeForName (trimmed (first (split '=' line)))).name
    if !mimetypes.contains mimetype && !unselectedMimetypes.contains mimetype then
      { st with existingAssociations := st.existingAssociations ++ [line] }
    else st

/-- The read loop of `setDefault` over the content of an opened `mimeapps.list`. -/
def setDefaultRead (db : QMimeDatabase) (mimetypes unselectedMimetypes : List Str)
    (content : Str) : ReadState :=
  (readLines content).foldl (setDefaultStep db mimetypes unselectedMimetypes)
    { inCorrectGroup := false, existingContent := [], existingAssociations := [] }

/-- The file `mimeapps.list`: `content` is what opening it for reading yields (`none` when
it cannot be opened), `writable` tells whether opening it for writing succeeds. -/
structure MimeAppsFile where
  content : Option Str
  writable : Bool
deriving DecidableEq

/-- How a call of `setDefault` ends: the `invalid` warning, the `Failed to store settings`
message box, or the completed write. -/
inductive SetDefaultResult where
  | unknownApplication
  | writeFailure
  | success
deriving DecidableEq

/-- The bytes written for a list of lines: each line followed by a newline. -/
def writeLines : List Str → Str
  | [] => []
  | l :: ls => l ++ '\n' :: writeLines ls

/-- The line written for one selected MIME type, without its newline. -/
def associationLine (mimetype desktopFile : Str) : Str := mimetype ++ '=' :: desktopFile

/-- The lists `existingContent` and `existingAssociations` at the time of writing. -/
def setDefaultExisting (db : QMimeDatabase) (mimetypes unselectedMimetypes : List Str)
    (file : MimeAppsFile) : ReadState :=
  match file.content with
  | some content => setDefaultRead db mimetypes unselectedMimetypes content
  | none => { inCorrectGroup := false, existingContent := [], existingAssociations := [] }

/-- The text written between the existing content and the existing associations. -/
def headerText : Str := "\n[Default Applications]\n".toList

/-- The function `Widget::setDefault`: its outcome and the file afterwards. -/
def setDefault (db : QMimeDatabase) (m_desktopFileNames : QHash Str) (appName : Str)
    (mimetypes unselectedMimetypes : List Str) (file : MimeAppsFile) :
    SetDefaultResult × MimeAppsFile :=
  let desktopFile := QHash.value m_desktopFileNames appName
  if desktopFile.isEmpty then (SetDefaultResult.unknownApplication, file)
  else
    let st := setDefaultExisting db mimetypes unselectedMimetypes file
    if !file.writable then (SetDefaultResult.writeFailure, file)
    else
      (SetDefaultResult.success,
        { file with
          content := some
            (writeLines st.existingContent ++ headerText ++
              writeLines st.existingAssociations ++
              writeLines (mimetypes.map
                (fun mimetype => associationLine mimetype
                  (QHash.value m_desktopFileNames appName)))) })

/-! ## `Widget::loadDesktopFile` -/

/-- A `QMultiHash<QString, QString>` as the list of its (key, value) pairs. -/
abbrev QMultiHash := List (Str × Str)

/-- The function `QMultiHash::contains(key, value)`. -/
def QMultiHash.contains (m : QMultiHash) (k v : Str) : Bool := m.any (fun p => p = (k, v))

/-- The function `QMultiHash::insert(key, value)`. -/
def QMultiHash.insert (m : QMultiHash) (k v : Str) : QMultiHash := (k, v) :: m

/-- The application index held by the widget. -/
structure Widget where
  m_desktopFileNames : QHash Str
  m_applicationNames : QHash Str
  m_applicationIcons : QHash Str
  m_supportedMimetypes : QMultiHash
  m_applications : QHash (List Str)
deriving DecidableEq

/-- The index before any descriptor is loaded. -/
def Widget.empty : Widget := ⟨[], [], [], [], []⟩

/-- Local variables of the read loop of `loadDesktopFile`. -/
structure ParseState where
  mimetypes : List Str
  appName : Str
  appId : Str
  iconName : Str
  inCorrectGroup : Bool
  noDisplay : Bool
deriving DecidableEq

/-- The statement `line.remove(0, line.indexOf('=') + 1)`. -/
def removeThroughEquals (line : Str) : Str := remove0 line (indexOf line '=' + 1)

/-- The identity chosen from the non-empty value of an `Exec` line. -/
def execIdentity (value : Str) : Str :=
  let parts := split ' ' value
  if first parts = "env".toList ∧ parts.length > 2 then parts.getD 2 [] else first parts

/-- One iteration of the read loop of `loadDesktopFile` on the result `raw` of `readLine()`. -/
def loadDesktopFileStep (st : ParseState) (raw : Str) : ParseState :=
  let line := simplified raw
  if startsWith line ['['] then
    { st with inCorrectGroup := decide (line = "[Desktop Entry]".toList) }
  else if !st.inCorrectGroup then st
  else if startsWith line "MimeType".toList then
    { st with mimetypes := splitSkipEmpty ';' (removeThroughEquals line) }
  else if startsWith line "Name".toList && !containsChar line '[' then
    { st with appName := removeThroughEquals line }
  else if startsWith line "Icon".toList then
    { st with iconName := removeThroughEquals line }
  else if startsWith line "Exec".toList then
    let value := removeThroughEquals line
    if value.isEmpty then st else { st with appId := execIdentity value }
  else if startsWith line "NoDisplay=".toList && containsCI line "true".toList then
    { st with noDisplay := true }
  else st

/-- The read loop of `loadDesktopFile` over the content of the descriptor `fileName`. -/
def parseDesktopFile (fileName content : Str) : ParseState :=
  (readLines content).foldl loadDesktopFileStep
    { mimetypes := [], appName := [], appId := fileName, iconName := [],
      inCorrectGroup := false, noDisplay := false }

/-- One iteration of the loop of `loadDesktopFile` over the declared MIME types. -/
def loadMimeType (db : QMimeDatabase) (appId : Str) (w : Widget) (readMimeName : Str) : Widget :=
  let mimetype := db.mimeTypeForName (qtrimmed readMimeName)
  if !mimetype.isValid then w
  else
    let name := mimetype.name
    if QMultiHash.contains w.m_supportedMimetypes appId name then w
    else
      let parts := split '/' name
      if parts.length ≠ 2 then w
      else
        let type := qtrimmed (parts.getD 0 [])
        { w with
          m_applications :=
            QHash.insert w.m_applications type (QSet.insert (QHash.value w.m_applications type) appId)
          m_supportedMimetypes := QMultiHash.insert w.m_supportedMimetypes appId name }

/-- The display name used for a parsed descriptor: its `Name`, or the identity when
the name is empty. -/
def ParseState.displayName (p : ParseState) : Str :=
  if p.appName.isEmpty then p.appId else p.appName

/-- The update of `m_desktopFileNames`: a descriptor without `NoDisplay` always records its
filename, a hidden one only when the identity has none yet. -/
def recordDesktopFile (w : Widget) (fileName : Str) (p : ParseState) : Widget :=
  if !p.noDisplay || !QHash.contains w.m_desktopFileNames p.appId then
    { w with m_desktopFileNames := QHash.insert w.m_desktopFileNames p.appId fileName }
  else w

/-- The update of `m_applicationIcons` and `m_applicationNames`, made only when the
descriptor has an icon. -/
def recordNameAndIcon (w : Widget) (p : ParseState) : Widget :=
  if (!p.noDisplay || !QHash.contains w.m_applicationIcons p.appId) && !p.iconName.isEmpty then
    { w with
      m_applicationIcons := QHash.insert w.m_applicationIcons p.appId p.iconName
      m_applicationNames := QHash.insert w.m_applicationNames p.appId p.displayName }
  else w

/-- The part of `loadDesktopFile` after the read loop. -/
def ingest (db : QMimeDatabase) (w : Widget) (fileName : Str) (p : ParseState) : Widget :=
  if p.mimetypes.isEmpty then w
  else
    p.mimetypes.foldl (loadMimeType db p.appId)
      (recordNameAndIcon (recordDesktopFile w fileName p) p)

/-- The function `Widget::loadDesktopFile` for the descriptor named `fileName`; `file` is
its content, `none` when it cannot be opened. -/
def loadDesktopFile (db : QMimeDatabase) (w : Widget) (fileName : Str) (file : Option Str) :
    Widget :=
  match file with
  | none => w
  | some content => ingest db w fileName (parseDesktopFile fileName content)

/-! ## Reading of a `mimeapps.list` document -/

/-- The non-blank lines of a document, each without its surrounding whitespace. -/
def documentLines (content : Str) : List Str :=
  ((readLines content).map trimmed).filter (fun l => !l.isEmpty)

/-- A section header is a line that starts with `[`. -/
def isHeader (l : Str) : Bool := startsWith l ['[']

/-- The lines that lie in a `[Default Applications]` section; `inside` tells whether the
first line already lies in one. -/
def defaultSectionLines : Bool → List Str → List Str
  | _, [] => []
  | inside, l :: ls =>
    if isHeader l then defaultSectionLines (decide (l = defaultApplicationsHeader)) ls
    else if inside then l :: defaultSectionLines true ls
    else defaultSectionLines false ls

/-- The lines that lie outside every `[Default Applications]` section, the headers of the
other sections included. -/
def outsideLines : Bool → List Str → List Str
  | _, [] => []
  | inside, l :: ls =>
    if isHeader l then
      if l = defaultApplicationsHeader then outsideLines true ls
      else l :: outsideLines false ls
    else if inside then outsideLines true ls
    else l :: outsideLines false ls

/-- The key of an association line: the text left of the first `=`, without surrounding
whitespace. -/
def lineKey (line : Str) : Str := trimmed (line.takeWhile (fun c => c ≠ '='))

/-- The canonical name that the MIME database gives for the key of a line. -/
def canonicalKey (db : QMimeDatabase) (line : Str) : Str :=
  (db.mimeTypeForName (lineKey line)).name

/-- A line of the section that a merge leaves alone: it has no `=`, or its canonical key is
neither selected nor deselected. -/
def untouched (db : QMimeDatabase) (selected deselected : List Str) (line : Str) : Bool :=
  !containsChar line '=' ||
    (!selected.contains (canonicalKey db line) && !deselected.contains (canonicalKey db line))



/-- The lines that `setDefault` writes below the `[Default Applications]` header: the
associations it kept, then one line for each selected MIME type. -/
def setDefaultSection (db : QMimeDatabase) (m_desktopFileNames : QHash Str) (appName : Str)
    (mimetypes unselectedMimetypes : List Str) (file : MimeAppsFile) : List Str :=
  (setDefaultExisting db mimetypes unselectedMimetypes file).existingAssociations ++
    mimetypes.map (fun mimetype =>
      associationLine mimetype (QHash.value m_desktopFileNames appName))

/-- An association line whose key is `t`: the line has an `=` and the text left of the
first one is `t` up to surrounding whitespace. -/
def hasKey (t : Str) (line : Str) : Bool := containsChar line '=' && decide (lineKey line = t)

/-- The section headers among the lines of a document, in order. -/
def sectionHeaders (content : Str) : List Str := (documentLines content).filter isHeader

/-- Every line paired with the section header it stands under (`none` before the first
header); a header stands under itself. -/
def underHeaders : Option Str → List Str → List (Option Str × Str)
  | _, [] => []
  | h, l :: ls =>
    if isHeader l then (some l, l) :: underHeaders (some l) ls
    else (h, l) :: underHeaders h ls

/-- The identity resolver: every name is canonical. -/
def identityDb : QMimeDatabase := ⟨fun s => ⟨s⟩⟩

/-- A resolver that rejects every name. -/
def rejectingDb : QMimeDatabase := ⟨fun _ => ⟨[]⟩⟩

/-- A line as `setDefault` keeps it: not empty, without surrounding whitespace and without
a line break. -/
def CleanLine (l : Str) : Prop := l ≠ [] ∧ trimmed l = l ∧ containsChar l '\n' = false

/-! ## Reading of a descriptor -/

/-- The header line of the only section that `loadDesktopFile` interprets. -/
def desktopEntryHeader : Str := "[Desktop Entry]".toList

/-- The lines of a descriptor as `loadDesktopFile` sees them: whitespace simplified. -/
def descriptorLines (content : Str) : List Str := (readLines content).map simplified

/-- The lines that lie in a `[Desktop Entry]` section; `inside` tells whether the first
line already lies in one. -/
def desktopEntryLines : Bool → List Str → List Str
  | _, [] => []
  | inside, l :: ls =>
    if startsWith l ['['] then desktopEntryLines (decide (l = desktopEntryHeader)) ls
    else if inside then l :: desktopEntryLines true ls
    else desktopEntryLines false ls

/-- The values of the `Exec` lines among the given lines of a `[Desktop Entry]` section:
for every line that starts with `Exec`, the text after its first `=`, when it is not empty. -/
def execValuesOf (ls : List Str) : List Str :=
  ((ls.filter (fun l => startsWith l "Exec".toList)).map removeThroughEquals).filter
    (fun v => !v.isEmpty)

/-- The non-empty `Exec` values of a descriptor, in order. -/
def execValues (content : Str) : List Str :=
  execValuesOf (desktopEntryLines false (descriptorLines content))

/-- The whitespace-separated tokens of a simplified text. -/
def tokens (v : Str) : List Str := (split ' ' v).filter (fun p => !p.isEmpty)

/-- The identity derived from a descriptor: the filename when there is no non-empty `Exec`
value, else the first token of the last one, or its third token when the first token is
`env` and there are at least three. -/
def derivedIdentity (fileName content : Str) : Str :=
  match (execValues content).getLast? with
  | none => fileName
  | some v =>
    if (tokens v).head? = some "env".toList ∧ (tokens v).length > 2 then (tokens v).getD 2 []
    else (tokens v).headD []

/-- The identity as the claim words it: the filename when the `[Desktop Entry]` section has
no `Exec` line, otherwise the first whitespace-separated token of the value of the `Exec`
line, or the third token when the first one is `env`; `none` when there is no such token. -/
def statedIdentity (fileName content : Str) : Option Str :=
  match (desktopEntryLines false (descriptorLines content)).filter
      (fun l => startsWith l "Exec".toList) with
  | [] => some fileName
  | l :: _ =>
    if (tokens (removeThroughEquals l)).head? = some "env".toList then
      (tokens (removeThroughEquals l)).get? 2
    else (tokens (removeThroughEquals l)).head?

/-- No two adjacent spaces and no space at the end. -/
def okSpaces : Str → Bool
  | [] => true
  | [c] => c ≠ ' '
  | c :: d :: r => !(c = ' ' && d = ' ') && okSpaces (d :: r)

/-- A declared MIME type that `loadDesktopFile` records: the database knows it and its
canonical name has exactly two parts around a `/`. -/
def usable (db : QMimeDatabase) (readMimeName : Str) : Bool :=
  (db.mimeTypeForName (qtrimmed readMimeName)).isValid &&
    decide ((split '/' (db.mimeTypeForName (qtrimmed readMimeName)).name).length = 2)

/-! ## The scan of the constructor and the index it builds -/

/-- The loop of the constructor `Widget::Widget` over the descriptor files: every file,
given by its name and its content (`none` when it cannot be opened), is loaded in turn. -/
def loadDesktopFiles (db : QMimeDatabase) (w : Widget) (files : List (Str × Option Str)) :
    Widget :=
  files.foldl (fun w file => loadDesktopFile db w file.1 file.2) w

/-- The identities for which the constructor warns `does not have an associated desktop
file!`: the unique keys of `m_supportedMimetypes` that `m_desktopFileNames` does not contain. -/
def missingDesktopFiles (w : Widget) : List Str :=
  ((w.m_supportedMimetypes.map Prod.fst).dedup).filter
    (fun appId => !QHash.contains w.m_desktopFileNames appId)

/-- The category of a canonical MIME type name of the two-part form `c/subtype`: the text
before the `/` without surrounding whitespace; `none` for a name of another form. -/
def categoryOf (name : Str) : Option Str :=
  if (split '/' name).length = 2 then some (qtrimmed ((split '/' name).getD 0 [])) else none

/-- The effect of one line of a `[Desktop Entry]` section on what is read from a
descriptor. -/
def interpretEntryLine (st : ParseState) (line : Str) : ParseState :=
  if startsWith line "MimeType".toList then
    { st with mimetypes := splitSkipEmpty ';' (removeThroughEquals line) }
  else if startsWith line "Name".toList && !containsChar line '[' then
    { st with appName := removeThroughEquals line }
  else if startsWith line "Icon".toList then
    { st with iconName := removeThroughEquals line }
  else if startsWith line "Exec".toList then
    if (removeThroughEquals line).isEmpty then st
    else { st with appId := execIdentity (removeThroughEquals line) }
  else if startsWith line "NoDisplay=".toList && containsCI line "true".toList then
    { st with noDisplay := true }
  else st

/-- The values of the unqualified `Name` lines among the given lines: for every line that
starts with `Name` and holds no `[`, the text after its first `=`. -/
def nameValuesOf (ls : List Str) : List Str :=
  (ls.filter (fun l => startsWith l "Name".toList && !containsChar l '[')).map
    removeThroughEquals

/-- The values of the unqualified `Name` lines of a descriptor, in order. -/
def nameValues (content : Str) : List Str :=
  nameValuesOf (desktopEntryLines false (descriptorLines content))

/-- The descriptor `a.desktop` of the scenario. -/
def aDesktop : Str := "[Desktop Entry]\nExec=env FOO=1 /usr/bin/real-app\nMimeType=text/plain;\n".toList

/-- The descriptor `b.desktop` of the scenario. -/
def bDesktop : Str := "[Desktop Entry]\nName=Viewer\nMimeType=image/png;image/jpeg;\n".toList

/-- The index keeps a citable filename for every identity that has an association. -/
def Cited (w : Widget) : Prop :=
  (∀ kv ∈ w.m_desktopFileNames, kv.2 ≠ []) ∧
    ∀ p ∈ w.m_supportedMimetypes, QHash.contains w.m_desktopFileNames p.1 = true

/-- The category buckets hold exactly the identities with an association of that category. -/
def Mirrored (w : Widget) : Prop :=
  ∀ appId c : Str, appId ∈ QHash.value w.m_applications c ↔
    ∃ name, (appId, name) ∈ w.m_supportedMimetypes ∧ categoryOf name = some c

/-- The lines of a text as they stand in it, each without its terminating newline. -/
def textLines (text : Str) : List Str :=
  (readLines text).map (fun l => l.takeWhile (fun c => c ≠ '\n'))

/-- The `[Default Applications]` section of a file as it stands in it: the lines, unchanged,
that follow a `[Default Applications]` header line up to the next section header. -/
def writtenSection (file : MimeAppsFile) : List Str :=
  match file.content with
  | some text => defaultSectionLines false (textLines text)
  | none => []

/-! ## Properties of `setDefault` -/

theorem first_split (c : Char) (s : Str) :
    first (split c s) = s.takeWhile (fun d => d ≠ c) := by
  induction s with
  | nil => rfl
  | cons d ds ih =>
    by_cases h : d = c
    · simp [split, h, first]
    · have hstep : first (split c (d :: ds)) = d :: first (split c ds) := by
        simp only [split, h, if_false]
        cases split c ds <;> rfl
      rw [hstep, ih]
      simp [List.takeWhile, h]

theorem writeLines_append (a b : List Str) :
    writeLines (a ++ b) = writeLines a ++ writeLines b := by
  induction a with
  | nil => rfl
  | cons l ls ih => simp [writeLines, ih]

theorem defaultApplicationsHeader_isHeader : isHeader defaultApplicationsHeader = true := by
  decide

theorem setDefaultStep_blank (db : QMimeDatabase) (sel unsel : List Str) (st : ReadState)
    (r : Str) (he : trimmed r = []) : setDefaultStep db sel unsel st r = st := by
  simp [setDefaultStep, he]

theorem setDefaultStep_header (db : QMimeDatabase) (sel unsel : List Str) (st : ReadState)
    (r : Str) (hh : isHeader (trimmed r) = true) :
    setDefaultStep db sel unsel st r =
      ⟨decide (trimmed r = defaultApplicationsHeader),
        if trimmed r = defaultApplicationsHeader then st.existingContent
        else st.existingContent ++ [trimmed r], st.existingAssociations⟩ := by
  have hne : trimmed r ≠ [] := by
    intro h; rw [h] at hh; exact absurd hh (by decide)
  unfold isHeader at hh
  unfold setDefaultStep
  simp only [List.isEmpty_iff, hne, if_false, hh, if_true]
  by_cases hd : trimmed r = defaultApplicationsHeader <;> simp [hd]

theorem setDefaultStep_outside (db : QMimeDatabase) (sel unsel : List Str) (st : ReadState)
    (r : Str) (hne : trimmed r ≠ []) (hh : isHeader (trimmed r) = false)
    (hg : st.inCorrectGroup = false) :
    setDefaultStep db sel unsel st r =
      ⟨false, st.existingContent ++ [trimmed r], st.existingAssociations⟩ := by
  unfold isHeader at hh
  simp [setDefaultStep, hne, hh, hg]

theorem setDefaultStep_inside (db : QMimeDatabase) (sel unsel : List Str) (st : ReadState)
    (r : Str) (hne : trimmed r ≠ []) (hh : isHeader (trimmed r) = false)
    (hg : st.inCorrectGroup = true) :
    setDefaultStep db sel unsel st r =
      ⟨true, st.existingContent,
        if untouched db sel unsel (trimmed r) = true then st.existingAssociations ++ [trimmed r]
        else st.existingAssociations⟩ := by
  unfold isHeader at hh
  simp only [untouched, canonicalKey, lineKey, ← first_split]
  by_cases hc : containsChar (trimmed r) '=' = true
  · by_cases hk : (db.mimeTypeForName (trimmed (first (split '=' (trimmed r))))).name ∈ sel
    · simp [setDefaultStep, hne, hh, hg, hc, hk]
      cases st; simp_all
    · by_cases hk2 : (db.mimeTypeForName (trimmed (first (split '=' (trimmed r))))).name ∈ unsel
      · simp [setDefaultStep, hne, hh, hg, hc, hk, hk2]
        cases st; simp_all
      · simp [setDefaultStep, hne, hh, hg, hc, hk, hk2]
  · simp [setDefaultStep, hne, hh, hg, hc]

theorem foldl_setDefaultStep (db : QMimeDatabase) (sel unsel : List Str) (raws : List Str) :
    ∀ st : ReadState,
      (raws.foldl (setDefaultStep db sel unsel) st).existingContent =
        st.existingContent ++
          outsideLines st.inCorrectGroup ((raws.map trimmed).filter (fun l => !l.isEmpty)) ∧
      (raws.foldl (setDefaultStep db sel unsel) st).existingAssociations =
        st.existingAssociations ++
          (defaultSectionLines st.inCorrectGroup
            ((raws.map trimmed).filter (fun l => !l.isEmpty))).filter (untouched db sel unsel) := by
  induction raws with
  | nil => intro st; simp [outsideLines, defaultSectionLines]
  | cons r rs ih =>
    intro st
    simp only [List.foldl_cons, List.map_cons]
    by_cases he : trimmed r = []
    · rw [setDefaultStep_blank db sel unsel st r he, List.filter_cons_of_neg (by simp [he])]
      exact ih st
    · rw [List.filter_cons_of_pos (by simpa using he)]
      cases hh : isHeader (trimmed r) with
      | true =>
        rw [setDefaultStep_header db sel unsel st r hh]
        have h := ih ⟨decide (trimmed r = defaultApplicationsHeader),
          if trimmed r = defaultApplicationsHeader then st.existingContent
          else st.existingContent ++ [trimmed r], st.existingAssociations⟩
        refine ⟨h.1.trans ?_, h.2.trans ?_⟩ <;>
          by_cases hd : trimmed r = defaultApplicationsHeader <;>
          simp [outsideLines, defaultSectionLines, hh, hd, defaultApplicationsHeader_isHeader]
      | false =>
        cases hg : st.inCorrectGroup with
        | false =>
          rw [setDefaultStep_outside db sel unsel st r he hh hg]
          have h := ih ⟨false, st.existingContent ++ [trimmed r], st.existingAssociations⟩
          refine ⟨h.1.trans ?_, h.2.trans ?_⟩ <;>
            simp [outsideLines, defaultSectionLines, hh]
        | true =>
          rw [setDefaultStep_inside db sel unsel st r he hh hg]
          have h := ih ⟨true, st.existingContent,
            if untouched db sel unsel (trimmed r) = true then
              st.existingAssociations ++ [trimmed r]
            else st.existingAssociations⟩
          refine ⟨h.1.trans ?_, h.2.trans ?_⟩ <;>
            by_cases hk : untouched db sel unsel (trimmed r) = true <;>
            simp [outsideLines, defaultSectionLines, hh, hk]

theorem setDefaultRead_eq (db : QMimeDatabase) (sel unsel : List Str) (content : Str) :
    (setDefaultRead db sel unsel content).existingContent =
        outsideLines false (documentLines content) ∧
      (setDefaultRead db sel unsel content).existingAssociations =
        (defaultSectionLines false (documentLines content)).filter (untouched db sel unsel) := by
  have h := foldl_setDefaultStep db sel unsel (readLines content) ⟨false, [], []⟩
  simpa [setDefaultRead, documentLines] using h

theorem setDefault_written (db : QMimeDatabase) (names : QHash Str) (appName : Str)
    (sel unsel : List Str) (file : MimeAppsFile)
    (hf : QHash.value names appName ≠ []) (hw : file.writable = true) :
    setDefault db names appName sel unsel file =
      (SetDefaultResult.success,
        ⟨some (writeLines (setDefaultExisting db sel unsel file).existingContent ++ headerText ++
          writeLines (setDefaultSection db names appName sel unsel file)), true⟩) := by
  cases file with
  | mk c w =>
    simp only at hw
    subst hw
    simp [setDefault, hf, setDefaultSection, writeLines_append, List.append_assoc]

/-- C7: when the identity has no recorded non-empty desktop filename, `setDefault` ends in
the unknown-application outcome and the file is what it was, whatever the document, the
selected and the deselected sets are. -/
theorem setDefault_unknown_application (db : QMimeDatabase) (names : QHash Str)
    (appName : Str) (sel unsel : List Str) (file : MimeAppsFile)
    (hf : QHash.value names appName = []) :
    setDefault db names appName sel unsel file = (SetDefaultResult.unknownApplication, file) := by
  simp [setDefault, hf]

theorem setDefault_unknown_application_witness :
    QHash.value [("app".toList, "app.desktop".toList)] "nonexistent".toList = [] ∧
    setDefault identityDb [("app".toList, "app.desktop".toList)] "nonexistent".toList
        ["text/plain".toList] [] ⟨some "[Default Applications]\na=b\n".toList, true⟩ =
      (SetDefaultResult.unknownApplication, ⟨some "[Default Applications]\na=b\n".toList, true⟩) :=
  ⟨by decide, setDefault_unknown_application identityDb [("app".toList, "app.desktop".toList)]
    "nonexistent".toList ["text/plain".toList] []
    ⟨some "[Default Applications]\na=b\n".toList, true⟩ (by decide)⟩

theorem takeWhile_ne_append (c : Char) (t f : Str) (h : containsChar t c = false) :
    (t ++ c :: f).takeWhile (fun d => d ≠ c) = t := by
  induction t with
  | nil => simp [List.takeWhile]
  | cons d ds ih =>
    simp only [containsChar, List.any_cons, Bool.or_eq_false_iff, decide_eq_false_iff_not] at h
    have ih' := ih (by simpa [containsChar] using h.2)
    simp only [List.cons_append, List.takeWhile, ne_eq, h.1, not_false_eq_true, decide_True]
    exact congrArg _ ih'

theorem containsChar_associationLine (t f : Str) :
    containsChar (associationLine t f) '=' = true := by
  simp [containsChar, associationLine]

theorem lineKey_associationLine (t f : Str) (h : containsChar t '=' = false)
    (ht : trimmed t = t) : lineKey (associationLine t f) = t := by
  unfold lineKey associationLine
  rw [takeWhile_ne_append '=' t f h, ht]

theorem hasKey_associationLine (t u f : Str) (h : containsChar u '=' = false)
    (hu : trimmed u = u) : hasKey t (associationLine u f) = decide (u = t) := by
  simp [hasKey, containsChar_associationLine, lineKey_associationLine u f h hu]

theorem setDefaultExisting_untouched (db : QMimeDatabase) (sel unsel : List Str)
    (file : MimeAppsFile) :
    ∀ l ∈ (setDefaultExisting db sel unsel file).existingAssociations,
      untouched db sel unsel l = true := by
  intro l hl
  cases file with
  | mk c w =>
    cases c with
    | none => simp [setDefaultExisting] at hl
    | some content =>
      simp only [setDefaultExisting, (setDefaultRead_eq db sel unsel content).2] at hl
      exact (List.mem_filter.mp hl).2

theorem filter_eq_singleton (sel : List Str) (t : Str) (hnd : sel.Nodup) (ht : t ∈ sel) :
    sel.filter (fun u => decide (u = t)) = [t] := by
  induction sel with
  | nil => simp at ht
  | cons a as ih =>
    rw [List.nodup_cons] at hnd
    by_cases hat : a = t
    · subst hat
      rw [List.filter_cons_of_pos (by simp)]
      congr 1
      rw [List.filter_eq_nil_iff]
      intro u hu
      simp only [decide_eq_true_eq]
      rintro rfl
      exact hnd.1 hu
    · rw [List.filter_cons_of_neg (by simpa using hat)]
      rcases List.mem_cons.mp ht with h | h
      · exact absurd h.symm hat
      · exact ih hnd.2 h

/-- Among the lines that `setDefault` hands to the file below the header, exactly one has
the key `t` for a selected canonical `t` without `=` and surrounding whitespace: `t=f`. -/
theorem setDefaultSection_one_line_per_selected (db : QMimeDatabase) (names : QHash Str)
    (appName : Str) (sel unsel : List Str) (file : MimeAppsFile)
    (hf : QHash.value names appName ≠ []) (hw : file.writable = true) (hnd : sel.Nodup)
    (hcanon : ∀ t ∈ sel, (db.mimeTypeForName t).name = t)
    (hplain : ∀ t ∈ sel, containsChar t '=' = false ∧ trimmed t = t) :
    setDefault db names appName sel unsel file =
        (SetDefaultResult.success,
          ⟨some (writeLines (setDefaultExisting db sel unsel file).existingContent ++
            headerText ++ writeLines (setDefaultSection db names appName sel unsel file)),
            true⟩) ∧
      ∀ t ∈ sel,
        (setDefaultSection db names appName sel unsel file).filter (hasKey t) =
          [associationLine t (QHash.value names appName)] := by
  refine ⟨setDefault_written db names appName sel unsel file hf hw, ?_⟩
  intro t ht
  unfold setDefaultSection
  rw [List.filter_append]
  have hkept : (setDefaultExisting db sel unsel file).existingAssociations.filter (hasKey t)
      = [] := by
    rw [List.filter_eq_nil_iff]
    intro l hl hk
    have hu := setDefaultExisting_untouched db sel unsel file l hl
    simp only [hasKey, Bool.and_eq_true, decide_eq_true_eq] at hk
    simp only [untouched, canonicalKey, hk.1, hk.2, hcanon t ht, Bool.not_true,
      Bool.false_or, Bool.and_eq_true, Bool.not_eq_true', List.contains_eq_any_beq,
      List.any_eq_false, beq_iff_eq] at hu
    exact hu.1 t ht rfl
  have hnew : (sel.map (fun u => associationLine u (QHash.value names appName))).filter
      (hasKey t) = [associationLine t (QHash.value names appName)] := by
    rw [List.filter_map]
    have hfun : sel.filter (hasKey t ∘ fun u => associationLine u (QHash.value names appName))
        = sel.filter (fun u => decide (u = t)) := by
      apply List.filter_congr
      intro u hu
      exact hasKey_associationLine t u _ (hplain u hu).1 (hplain u hu).2
    rw [hfun, filter_eq_singleton sel t hnd ht]
    rfl
  rw [hkept, hnew]
  rfl

/-- Among the lines that `setDefault` hands to the file below the header, none has a
deselected key, for canonical deselected types and plain selected names disjoint from them. -/
theorem setDefaultSection_no_deselected_key (db : QMimeDatabase) (names : QHash Str)
    (appName : Str) (sel unsel : List Str) (file : MimeAppsFile)
    (hf : QHash.value names appName ≠ []) (hw : file.writable = true)
    (hcanon : ∀ d ∈ unsel, (db.mimeTypeForName d).name = d)
    (hplain : ∀ t ∈ sel, containsChar t '=' = false ∧ trimmed t = t)
    (hdisj : ∀ t ∈ sel, t ∉ unsel) :
    setDefault db names appName sel unsel file =
        (SetDefaultResult.success,
          ⟨some (writeLines (setDefaultExisting db sel unsel file).existingContent ++
            headerText ++ writeLines (setDefaultSection db names appName sel unsel file)),
            true⟩) ∧
      ∀ l ∈ setDefaultSection db names appName sel unsel file, ∀ d ∈ unsel,
        hasKey d l = false := by
  refine ⟨setDefault_written db names appName sel unsel file hf hw, ?_⟩
  intro l hl d hd
  unfold setDefaultSection at hl
  rcases List.mem_append.mp hl with h | h
  · have hu := setDefaultExisting_untouched db sel unsel file l h
    by_contra hk
    simp only [Bool.not_eq_false, hasKey, Bool.and_eq_true, decide_eq_true_eq] at hk
    simp only [untouched, canonicalKey, hk.1, hk.2, hcanon d hd, Bool.not_true,
      Bool.false_or, Bool.and_eq_true, Bool.not_eq_true', List.contains_eq_any_beq,
      List.any_eq_false, beq_iff_eq] at hu
    exact hu.2 d hd rfl
  · obtain ⟨t, ht, rfl⟩ := List.mem_map.mp h
    rw [hasKey_associationLine d t _ (hplain t ht).1 (hplain t ht).2]
    simp only [decide_eq_false_iff_not]
    rintro rfl
    exact hdisj t ht hd

theorem outsideLines_of_no_header (ls : List Str)
    (h : ∀ l ∈ ls, l ≠ defaultApplicationsHeader) :
    outsideLines false ls = ls ∧ defaultSectionLines false ls = [] := by
  induction ls with
  | nil => simp [outsideLines, defaultSectionLines]
  | cons l ls ih =>
    have hl : l ≠ defaultApplicationsHeader := h l (List.mem_cons_self _ _)
    have ih' := ih (fun x hx => h x (List.mem_cons_of_mem _ hx))
    cases hh : isHeader l <;>
      simp [outsideLines, defaultSectionLines, hh, hl, ih'.1, ih'.2]

/-- C5 (as amended): when no line of the existing document is the `[Default Applications]`
header, `setDefault` writes the non-blank lines of the original content, each without its
surrounding whitespace and followed by a newline, then a blank line and the header, then one
`type=filename` line for each selected type and nothing else. -/
theorem setDefault_without_section (db : QMimeDatabase) (names : QHash Str)
    (appName : Str) (sel unsel : List Str) (content : Str)
    (hf : QHash.value names appName ≠ [])
    (hno : ∀ l ∈ documentLines content, l ≠ defaultApplicationsHeader) :
    setDefault db names appName sel unsel ⟨some content, true⟩ =
      (SetDefaultResult.success,
        ⟨some (writeLines (documentLines content) ++ headerText ++
          writeLines (sel.map (fun t => associationLine t (QHash.value names appName)))),
          true⟩) := by
  rw [setDefault_written db names appName sel unsel _ hf rfl]
  have h := outsideLines_of_no_header (documentLines content) hno
  simp [setDefaultSection, setDefaultExisting, setDefaultRead_eq, h.1, h.2]

theorem setDefault_without_section_witness :
    (QHash.value [("app".toList, "app.desktop".toList)] "app".toList ≠ [] ∧
      ∀ l ∈ documentLines "# defaults\n\n[Added Associations]\n a=b;\n".toList,
        l ≠ defaultApplicationsHeader) ∧
    setDefault identityDb [("app".toList, "app.desktop".toList)] "app".toList
        ["text/plain".toList] [] ⟨some "# defaults\n\n[Added Associations]\n a=b;\n".toList, true⟩ =
      (SetDefaultResult.success,
        ⟨some (writeLines (documentLines "# defaults\n\n[Added Associations]\n a=b;\n".toList) ++
          headerText ++
          writeLines (["text/plain".toList].map (fun t => associationLine t
            (QHash.value [("app".toList, "app.desktop".toList)] "app".toList)))), true⟩) :=
  ⟨⟨by decide, by decide⟩,
    setDefault_without_section identityDb [("app".toList, "app.desktop".toList)] "app".toList
      ["text/plain".toList] [] "# defaults\n\n[Added Associations]\n a=b;\n".toList
      (by decide) (by decide)⟩

/-- C5 (claim as stated fails): a document without the section that has a blank line is
not reproduced as the beginning of the output; the blank line is gone. -/
theorem setDefault_without_section_counterexample :
    (∀ l ∈ documentLines "# defaults\n\n[Added Associations]\na=b;\n".toList,
        l ≠ defaultApplicationsHeader) ∧
    (setDefault identityDb [("app".toList, "app.desktop".toList)] "app".toList
        ["text/plain".toList] []
        ⟨some "# defaults\n\n[Added Associations]\na=b;\n".toList, true⟩).2.content =
      some ("# defaults\n[Added Associations]\na=b;\n\n[Default Applications]\n" ++
        "text/plain=app.desktop\n").toList ∧
    ¬ ("# defaults\n\n[Added Associations]\na=b;\n".toList <+:
        ("# defaults\n[Added Associations]\na=b;\n\n[Default Applications]\n" ++
          "text/plain=app.desktop\n").toList) := by
  decide

theorem underHeaders_outsideLines (ls : List Str) :
    ∀ (h h' : Option Str) (inside : Bool),
      (inside = false → h = h' ∧ h' ≠ some defaultApplicationsHeader) →
      (inside = true → h' = some defaultApplicationsHeader) →
      underHeaders h (outsideLines inside ls) =
        (underHeaders h' ls).filter (fun p => decide (p.1 ≠ some defaultApplicationsHeader)) := by
  induction ls with
  | nil => intro h h' inside _ _; simp [outsideLines, underHeaders]
  | cons l ls ih =>
    intro h h' inside hout hin
    cases hh : isHeader l with
    | true =>
      by_cases hd : l = defaultApplicationsHeader
      · have h1 := ih h (some l) true (by simp) (by simp [hd])
        rw [hd] at h1
        simp [outsideLines, underHeaders, hd, defaultApplicationsHeader_isHeader, h1]
      · have h1 := ih (some l) (some l) false (by simp [hd]) (by simp)
        simp [outsideLines, underHeaders, hh, hd, h1]
    | false =>
      cases hi : inside with
      | true =>
        have hh' : h' = some defaultApplicationsHeader := hin hi
        have h1 := ih h h' true (by simp) (by simp [hh'])
        simp [outsideLines, underHeaders, hh, h1, hh']
      | false =>
        obtain ⟨e, hne⟩ := hout hi
        subst e
        have h1 := ih h h false (by simp [hne]) (by simp)
        simp [outsideLines, underHeaders, hh, h1, hne]

/-- C6 (as amended): `setDefault` writes the lines that lie outside the
`[Default Applications]` section first and the section last, after one blank line; the lines
written first are the non-blank lines of the input outside the section, each without its
surrounding whitespace, in their original order and each under the section header it stood
under, the headers of the other sections included. -/
theorem setDefault_preserves_outside_lines (db : QMimeDatabase) (names : QHash Str)
    (appName : Str) (sel unsel : List Str) (content : Str)
    (hf : QHash.value names appName ≠ []) :
    setDefault db names appName sel unsel ⟨some content, true⟩ =
        (SetDefaultResult.success,
          ⟨some (writeLines (setDefaultRead db sel unsel content).existingContent ++
            headerText ++
            writeLines (setDefaultSection db names appName sel unsel ⟨some content, true⟩)),
            true⟩) ∧
      underHeaders none (setDefaultRead db sel unsel content).existingContent =
        (underHeaders none (documentLines content)).filter
          (fun p => decide (p.1 ≠ some defaultApplicationsHeader)) := by
  refine ⟨setDefault_written db names appName sel unsel _ hf rfl, ?_⟩
  rw [(setDefaultRead_eq db sel unsel content).1]
  exact underHeaders_outsideLines (documentLines content) none none false (by simp) (by simp)

theorem setDefault_preserves_outside_lines_witness :
    QHash.value [("app".toList, "app.desktop".toList)] "app".toList ≠ [] ∧
    (setDefault identityDb [("app".toList, "app.desktop".toList)] "app".toList
          ["text/plain".toList] []
          ⟨some "[Default Applications]\na=b\n\n[Added Associations]\nc=d;\n".toList, true⟩ =
        (SetDefaultResult.success,
          ⟨some (writeLines (setDefaultRead identityDb ["text/plain".toList] []
              "[Default Applications]\na=b\n\n[Added Associations]\nc=d;\n".toList).existingContent
            ++ headerText ++
            writeLines (setDefaultSection identityDb [("app".toList, "app.desktop".toList)]
              "app".toList ["text/plain".toList] []
              ⟨some "[Default Applications]\na=b\n\n[Added Associations]\nc=d;\n".toList, true⟩)),
            true⟩) ∧
      underHeaders none (setDefaultRead identityDb ["text/plain".toList] []
          "[Default Applications]\na=b\n\n[Added Associations]\nc=d;\n".toList).existingContent =
        (underHeaders none
          (documentLines "[Default Applications]\na=b\n\n[Added Associations]\nc=d;\n".toList)).filter
          (fun p => decide (p.1 ≠ some defaultApplicationsHeader))) :=
  ⟨by decide,
    setDefault_preserves_outside_lines identityDb [("app".toList, "app.desktop".toList)]
      "app".toList ["text/plain".toList] []
      "[Default Applications]\na=b\n\n[Added Associations]\nc=d;\n".toList (by decide)⟩

/-- C6 (claim as stated fails): when `[Default Applications]` is followed by
`[Added Associations]`, the output has the two sections in the opposite order, and the blank
line of the input is gone. -/
theorem setDefault_preserves_outside_lines_counterexample :
    (setDefault identityDb [("app".toList, "app.desktop".toList)] "app".toList
        ["text/plain".toList] []
        ⟨some "[Default Applications]\na=b\n\n[Added Associations]\nc=d;\n".toList,
          true⟩).2.content =
      some ("[Added Associations]\nc=d;\n\n[Default Applications]\na=b\n" ++
        "text/plain=app.desktop\n").toList ∧
    sectionHeaders "[Default Applications]\na=b\n\n[Added Associations]\nc=d;\n".toList =
      ["[Default Applications]".toList, "[Added Associations]".toList] ∧
    sectionHeaders ("[Added Associations]\nc=d;\n\n[Default Applications]\na=b\n" ++
        "text/plain=app.desktop\n").toList =
      ["[Added Associations]".toList, "[Default Applications]".toList] := by
  decide

/-! ## Trimming lemmas -/

theorem trimBy_eq (sp : Char → Bool) (s : Str) :
    trimBy sp s = List.rdropWhile sp (s.dropWhile sp) := rfl

theorem dropWhile_trimBy (sp : Char → Bool) (s : Str) :
    (trimBy sp s).dropWhile sp = trimBy sp s := by
  rw [trimBy_eq]
  obtain ⟨t, ht⟩ := List.rdropWhile_prefix sp (s.dropWhile sp)
  cases hr : List.rdropWhile sp (s.dropWhile sp) with
  | nil => rfl
  | cons a r =>
    rw [hr] at ht
    have hidem := List.dropWhile_idempotent sp s
    rw [← ht] at hidem
    by_cases ha : sp a = true
    · exfalso
      have hsuf : (r ++ t).dropWhile sp <:+ r ++ t := List.dropWhile_suffix sp
      have hlen := hsuf.length_le
      simp only [List.cons_append, List.dropWhile_cons_of_pos ha] at hidem
      rw [hidem] at hlen
      simp at hlen
    · simp [List.dropWhile_cons_of_neg ha]

theorem trimBy_idem (sp : Char → Bool) (s : Str) : trimBy sp (trimBy sp s) = trimBy sp s := by
  rw [trimBy_eq sp (trimBy sp s), dropWhile_trimBy, trimBy_eq, List.rdropWhile_idempotent]

theorem trimBy_concat (sp : Char → Bool) (s : Str) (c : Char) (hc : sp c = true) :
    trimBy sp (s ++ [c]) = trimBy sp s := by
  rw [trimBy_eq, trimBy_eq, List.dropWhile_append]
  cases hs : s.dropWhile sp with
  | nil => simp [hc]
  | cons a r =>
    simp only [List.isEmpty_cons, Bool.false_eq_true, if_false]
    exact List.rdropWhile_concat_pos sp (a :: r) c hc

theorem mem_of_mem_trimBy (sp : Char → Bool) (s : Str) (x : Char) (hx : x ∈ trimBy sp s) :
    x ∈ s := by
  rw [trimBy_eq] at hx
  exact (List.dropWhile_sublist sp).subset ((List.rdropWhile_prefix sp _).sublist.subset hx)

theorem rdropWhile_append_cons (sp : Char → Bool) (t : Str) (c : Char) (hc : sp c = false)
    (f : Str) : List.rdropWhile sp (t ++ c :: f) = t ++ c :: List.rdropWhile sp f := by
  induction f using List.reverseRecOn with
  | nil =>
    have : t ++ [c] = t ++ [c] := rfl
    rw [List.rdropWhile_nil, List.rdropWhile_concat_neg _ _ _ (by simp [hc])]
  | append_singleton g x ih =>
    have e : t ++ c :: (g ++ [x]) = (t ++ c :: g) ++ [x] := by simp
    rw [e, List.rdropWhile_concat, List.rdropWhile_concat, ih]
    by_cases hx : sp x = true <;> simp [hx]

theorem trimBy_append_cons (sp : Char → Bool) (t : Str) (c : Char) (hc : sp c = false)
    (f : Str) (ht : trimBy sp t = t) :
    trimBy sp (t ++ c :: f) = t ++ c :: List.rdropWhile sp f := by
  have hd : t.dropWhile sp = t := by
    have := dropWhile_trimBy sp t
    rwa [ht] at this
  have h1 : (t ++ c :: f).dropWhile sp = t ++ c :: f := by
    rw [List.dropWhile_append, hd]
    cases t with
    | nil => simp [hc]
    | cons a r => simp
  rw [trimBy_eq, h1, rdropWhile_append_cons sp t c hc f]

/-! ## Reading back what was written -/

theorem readLines_line (l rest : Str) (hl : containsChar l '\n' = false) :
    readLines (l ++ '\n' :: rest) = (l ++ ['\n']) :: readLines rest := by
  induction l with
  | nil => simp [readLines]
  | cons a r ih =>
    simp only [containsChar, List.any_cons, Bool.or_eq_false_iff, decide_eq_false_iff_not] at hl
    have ih' := ih (by simpa [containsChar] using hl.2)
    have e : readLines (a :: r ++ '\n' :: rest) =
        match readLines (r ++ '\n' :: rest) with
        | [] => [[a]]
        | l :: ls => (a :: l) :: ls := by
      simp only [List.cons_append, readLines, hl.1, if_false]
      rfl
    rw [e, ih']
    rfl

theorem readLines_writeLines (ls : List Str) (rest : Str)
    (h : ∀ l ∈ ls, containsChar l '\n' = false) :
    readLines (writeLines ls ++ rest) = ls.map (fun l => l ++ ['\n']) ++ readLines rest := by
  induction ls with
  | nil => rfl
  | cons l ls ih =>
    have ih' := ih (fun x hx => h x (List.mem_cons_of_mem _ hx))
    simp only [writeLines, List.append_assoc, List.cons_append, List.map_cons]
    rw [readLines_line l _ (h l (List.mem_cons_self _ _)), ih']

theorem readLines_body (s : Str) :
    ∀ r ∈ readLines s, ∃ body, containsChar body '\n' = false ∧ (r = body ∨ r = body ++ ['\n']) := by
  induction s with
  | nil => intro r hr; simp [readLines] at hr
  | cons c cs ih =>
    intro r hr
    by_cases hc : c = '\n'
    · simp only [readLines, hc, if_true, List.mem_cons] at hr
      rcases hr with h | h
      · exact ⟨[], by simp [containsChar], Or.inr (by simpa using h)⟩
      · exact ih r h
    · simp only [readLines, hc, if_false] at hr
      cases hs : readLines cs with
      | nil =>
        rw [hs] at hr
        simp only [List.mem_singleton] at hr
        exact ⟨[c], by simp [containsChar, hc], Or.inl hr⟩
      | cons l ls =>
        rw [hs] at hr
        simp only [List.mem_cons] at hr
        rcases hr with h | h
        · obtain ⟨body, hb, hor⟩ := ih l (by simp [hs])
          refine ⟨c :: body, by simpa [containsChar, hc] using hb, ?_⟩
          rcases hor with e | e
          · exact Or.inl (by rw [h, e])
          · exact Or.inr (by rw [h, e]; rfl)
        · exact ih r (by simp [hs, h])

theorem cleanLine_of_mem_documentLines (content : Str) :
    ∀ l ∈ documentLines content, CleanLine l := by
  intro l hl
  simp only [documentLines, List.mem_filter, List.mem_map, Bool.not_eq_true',
    List.isEmpty_eq_false] at hl
  obtain ⟨⟨r, hr, rfl⟩, hne⟩ := hl
  refine ⟨hne, trimBy_idem _ _, ?_⟩
  obtain ⟨body, hb, hor⟩ := readLines_body content r hr
  have htr : trimmed r = trimmed body := by
    rcases hor with e | e
    · rw [e]
    · rw [e]; exact trimBy_concat isSpace body '\n' (by decide)
  rw [htr]
  simp only [containsChar, List.any_eq_false, decide_eq_true_eq] at hb ⊢
  intro x hx
  exact hb x (mem_of_mem_trimBy _ _ _ hx)

theorem outsideLines_append (C X : List Str) (hC : ∀ c ∈ C, c ≠ defaultApplicationsHeader) :
    outsideLines false (C ++ X) = C ++ outsideLines false X ∧
      defaultSectionLines false (C ++ X) = defaultSectionLines false X := by
  induction C with
  | nil => simp
  | cons c cs ih =>
    have hc : c ≠ defaultApplicationsHeader := hC c (List.mem_cons_self _ _)
    have ih' := ih (fun x hx => hC x (List.mem_cons_of_mem _ hx))
    cases hh : isHeader c <;>
      simp [outsideLines, defaultSectionLines, hh, hc, ih'.1, ih'.2]

theorem insideLines_of_no_header (Y : List Str) (hY : ∀ y ∈ Y, isHeader y = false) :
    outsideLines true Y = [] ∧ defaultSectionLines true Y = Y := by
  induction Y with
  | nil => simp [outsideLines, defaultSectionLines]
  | cons y ys ih =>
    have hy : isHeader y = false := hY y (List.mem_cons_self _ _)
    have ih' := ih (fun x hx => hY x (List.mem_cons_of_mem _ hx))
    simp [outsideLines, defaultSectionLines, hy, ih'.1, ih'.2]

theorem mem_outsideLines (L : List Str) :
    ∀ (b : Bool), ∀ c ∈ outsideLines b L, c ∈ L ∧ c ≠ defaultApplicationsHeader := by
  induction L with
  | nil => intro b c hc; simp [outsideLines] at hc
  | cons l ls ih =>
    intro b c hc
    have hdh : ∀ x : Str, isHeader x = false → x ≠ defaultApplicationsHeader := by
      intro x hx e
      rw [e, defaultApplicationsHeader_isHeader] at hx
      exact absurd hx (by decide)
    cases hh : isHeader l with
    | true =>
      by_cases hd : l = defaultApplicationsHeader
      · simp only [outsideLines, hh, hd, if_true] at hc
        have := ih true c hc
        exact ⟨List.mem_cons_of_mem _ this.1, this.2⟩
      · simp only [outsideLines, hh, hd, if_true, if_false, List.mem_cons] at hc
        rcases hc with e | h
        · subst e; exact ⟨List.mem_cons_self _ _, hd⟩
        · have := ih false c h
          exact ⟨List.mem_cons_of_mem _ this.1, this.2⟩
    | false =>
      cases b with
      | true =>
        simp only [outsideLines, hh, if_true] at hc
        have := ih true c (by simpa using hc)
        exact ⟨List.mem_cons_of_mem _ this.1, this.2⟩
      | false =>
        simp only [outsideLines, hh] at hc
        simp only [Bool.false_eq_true, if_false, List.mem_cons] at hc
        rcases hc with e | h
        · subst e; exact ⟨List.mem_cons_self _ _, hdh c hh⟩
        · have := ih false c h
          exact ⟨List.mem_cons_of_mem _ this.1, this.2⟩

theorem mem_defaultSectionLines (L : List Str) :
    ∀ (b : Bool), ∀ a ∈ defaultSectionLines b L, a ∈ L ∧ isHeader a = false := by
  induction L with
  | nil => intro b a ha; simp [defaultSectionLines] at ha
  | cons l ls ih =>
    intro b a ha
    cases hh : isHeader l with
    | true =>
      simp only [defaultSectionLines, hh, if_true] at ha
      have := ih _ a ha
      exact ⟨List.mem_cons_of_mem _ this.1, this.2⟩
    | false =>
      cases b with
      | true =>
        simp only [defaultSectionLines, hh] at ha
        simp only [Bool.false_eq_true, if_false, if_true, List.mem_cons] at ha
        rcases ha with e | h
        · subst e; exact ⟨List.mem_cons_self _ _, hh⟩
        · have := ih true a h
          exact ⟨List.mem_cons_of_mem _ this.1, this.2⟩
      | false =>
        simp only [defaultSectionLines, hh] at ha
        simp only [Bool.false_eq_true, if_false] at ha
        have := ih false a ha
        exact ⟨List.mem_cons_of_mem _ this.1, this.2⟩

theorem trimmed_written_clean (ls : List Str) (h : ∀ l ∈ ls, CleanLine l) :
    ((ls.map (fun l => l ++ ['\n'])).map trimmed).filter (fun l => !l.isEmpty) = ls := by
  induction ls with
  | nil => rfl
  | cons l ls ih =>
    have hl := h l (List.mem_cons_self _ _)
    have ih' := ih (fun x hx => h x (List.mem_cons_of_mem _ hx))
    have e : trimmed (l ++ ['\n']) = l := by
      have h1 : trimmed (l ++ ['\n']) = trimmed l := trimBy_concat isSpace l '\n' (by decide)
      rw [h1, hl.2.1]
    simp only [List.map_cons, e]
    rw [List.filter_cons_of_pos (by simpa using hl.1), ih']

theorem trimmed_written_new (ns : List Str) (h : ∀ n ∈ ns, trimmed n ≠ []) :
    ((ns.map (fun l => l ++ ['\n'])).map trimmed).filter (fun l => !l.isEmpty) =
      ns.map trimmed := by
  induction ns with
  | nil => rfl
  | cons n ns ih =>
    have hn := h n (List.mem_cons_self _ _)
    have ih' := ih (fun x hx => h x (List.mem_cons_of_mem _ hx))
    have e : trimmed (n ++ ['\n']) = trimmed n := trimBy_concat isSpace n '\n' (by decide)
    simp only [List.map_cons, e]
    rw [List.filter_cons_of_pos (by simpa using hn), ih']

theorem headerText_eq : headerText = '\n' :: (defaultApplicationsHeader ++ ['\n']) := by
  decide

theorem documentLines_written (C A N : List Str)
    (hC : ∀ c ∈ C, CleanLine c) (hA : ∀ a ∈ A, CleanLine a)
    (hN : ∀ n ∈ N, containsChar n '\n' = false ∧ trimmed n ≠ []) :
    documentLines (writeLines C ++ headerText ++ writeLines A ++ writeLines N) =
      C ++ defaultApplicationsHeader :: (A ++ N.map trimmed) := by
  have e : writeLines C ++ headerText ++ writeLines A ++ writeLines N =
      writeLines C ++ ([] ++ '\n' :: (defaultApplicationsHeader ++
        '\n' :: (writeLines A ++ (writeLines N ++ [])))) := by
    simp [headerText_eq, List.append_assoc]
  have hread : readLines (writeLines C ++ headerText ++ writeLines A ++ writeLines N) =
      C.map (fun l => l ++ ['\n']) ++ (['\n'] :: (defaultApplicationsHeader ++ ['\n']) ::
        (A.map (fun l => l ++ ['\n']) ++ N.map (fun l => l ++ ['\n']))) := by
    rw [e, readLines_writeLines C _ (fun l hl => (hC l hl).2.2),
      readLines_line [] _ (by decide), readLines_line defaultApplicationsHeader _ (by decide),
      readLines_writeLines A _ (fun l hl => (hA l hl).2.2),
      readLines_writeLines N _ (fun l hl => (hN l hl).1)]
    simp [readLines]
  unfold documentLines
  rw [hread]
  simp only [List.map_append, List.map_cons, List.filter_append, List.filter_cons]
  rw [trimmed_written_clean C hC, trimmed_written_clean A hA,
    trimmed_written_new N (fun n hn => (hN n hn).2)]
  have h1 : trimmed ['\n'] = [] := by decide
  have h2 : trimmed (defaultApplicationsHeader ++ ['\n']) = defaultApplicationsHeader := by
    decide
  have h3 : defaultApplicationsHeader.isEmpty = false := by decide
  simp [h1, h2, h3]

theorem setDefaultRead_written (db : QMimeDatabase) (sel unsel : List Str) (C A N : List Str)
    (hC : ∀ c ∈ C, CleanLine c ∧ c ≠ defaultApplicationsHeader)
    (hA : ∀ a ∈ A, CleanLine a ∧ isHeader a = false ∧ untouched db sel unsel a = true)
    (hN : ∀ n ∈ N, containsChar n '\n' = false ∧ trimmed n ≠ [] ∧
      isHeader (trimmed n) = false ∧ untouched db sel unsel (trimmed n) = false) :
    (setDefaultRead db sel unsel
        (writeLines C ++ headerText ++ writeLines A ++ writeLines N)).existingContent = C ∧
      (setDefaultRead db sel unsel
        (writeLines C ++ headerText ++ writeLines A ++ writeLines N)).existingAssociations = A := by
  have hdoc := documentLines_written C A N (fun c hc => (hC c hc).1) (fun a ha => (hA a ha).1)
    (fun n hn => ⟨(hN n hn).1, (hN n hn).2.1⟩)
  have hY : ∀ y ∈ A ++ N.map trimmed, isHeader y = false := by
    intro y hy
    rcases List.mem_append.mp hy with h | h
    · exact (hA y h).2.1
    · obtain ⟨n, hn, rfl⟩ := List.mem_map.mp h
      exact (hN n hn).2.2.1
  have hin := insideLines_of_no_header _ hY
  have hout := outsideLines_append C (defaultApplicationsHeader :: (A ++ N.map trimmed))
    (fun c hc => (hC c hc).2)
  obtain ⟨r1, r2⟩ := setDefaultRead_eq db sel unsel
    (writeLines C ++ headerText ++ writeLines A ++ writeLines N)
  rw [r1, r2, hdoc, hout.1, hout.2]
  constructor
  · simp [outsideLines, defaultApplicationsHeader_isHeader, hin.1]
  · simp only [defaultSectionLines, defaultApplicationsHeader_isHeader, if_true, decide_True,
      hin.2, List.filter_append]
    have hAf : A.filter (untouched db sel unsel) = A :=
      List.filter_eq_self.mpr (fun a ha => (hA a ha).2.2)
    have hNf : (N.map trimmed).filter (untouched db sel unsel) = [] := by
      rw [List.filter_eq_nil_iff]
      intro y hy
      obtain ⟨n, hn, rfl⟩ := List.mem_map.mp hy
      simp [(hN n hn).2.2.2]
    rw [hAf, hNf, List.append_nil]

theorem setDefaultExisting_clean (db : QMimeDatabase) (sel unsel : List Str)
    (file : MimeAppsFile) :
    (∀ c ∈ (setDefaultExisting db sel unsel file).existingContent,
        CleanLine c ∧ c ≠ defaultApplicationsHeader) ∧
      ∀ a ∈ (setDefaultExisting db sel unsel file).existingAssociations,
        CleanLine a ∧ isHeader a = false ∧ untouched db sel unsel a = true := by
  cases file with
  | mk c w =>
    cases c with
    | none => simp [setDefaultExisting]
    | some content =>
      simp only [setDefaultExisting, (setDefaultRead_eq db sel unsel content).1,
        (setDefaultRead_eq db sel unsel content).2]
      constructor
      · intro c hc
        have := mem_outsideLines _ _ c hc
        exact ⟨cleanLine_of_mem_documentLines content c this.1, this.2⟩
      · intro a ha
        obtain ⟨hm, hu⟩ := List.mem_filter.mp ha
        have := mem_defaultSectionLines _ _ a hm
        exact ⟨cleanLine_of_mem_documentLines content a this.1, this.2, hu⟩

theorem associationLine_reread (db : QMimeDatabase) (sel unsel : List Str) (t f : Str)
    (ht : t ∈ sel) (hcanon : (db.mimeTypeForName t).name = t)
    (heq : containsChar t '=' = false) (htrim : trimmed t = t)
    (hnl : containsChar t '\n' = false) (hbr : startsWith t ['['] = false)
    (hf : containsChar f '\n' = false) :
    containsChar (associationLine t f) '\n' = false ∧ trimmed (associationLine t f) ≠ [] ∧
      isHeader (trimmed (associationLine t f)) = false ∧
      untouched db sel unsel (trimmed (associationLine t f)) = false := by
  have e : trimmed (associationLine t f) = associationLine t (List.rdropWhile isSpace f) :=
    trimBy_append_cons isSpace t '=' (by decide) f htrim
  refine ⟨?_, ?_, ?_, ?_⟩
  · simp only [containsChar, List.any_eq_false, decide_eq_true_eq] at hnl hf ⊢
    intro x hx
    simp only [associationLine, List.mem_append, List.mem_cons] at hx
    rcases hx with h | h | h
    · exact hnl x h
    · rw [h]; decide
    · exact hf x h
  · rw [e]; simp [associationLine]
  · rw [e]
    cases t with
    | nil => simp [associationLine, isHeader, startsWith, List.isPrefixOf]
    | cons a r => simpa [associationLine, isHeader, startsWith, List.isPrefixOf] using hbr
  · rw [e]
    simp only [untouched, canonicalKey, containsChar_associationLine,
      lineKey_associationLine t _ heq htrim, hcanon, Bool.not_true, Bool.false_or,
      Bool.and_eq_false_iff, Bool.not_eq_false', List.contains_eq_any_beq, List.any_eq_true,
      beq_iff_eq]
    exact Or.inl ⟨t, ht, rfl⟩

/-- C4 (as amended): for every file that can be written, every application whose recorded
desktop filename contains no line break and every set of selected canonical MIME types whose
names contain no `=` and no line break, do not start with `[` and have no leading or trailing
whitespace, applying `setDefault` with that set and no deselected type to the file it has
produced gives the same outcome and the same file again. -/
theorem setDefault_idempotent (db : QMimeDatabase) (names : QHash Str) (appName : Str)
    (sel : List Str) (file : MimeAppsFile)
    (hf : QHash.value names appName ≠ []) (hw : file.writable = true)
    (hfn : containsChar (QHash.value names appName) '\n' = false)
    (hsel : ∀ t ∈ sel, (db.mimeTypeForName t).name = t ∧ containsChar t '=' = false ∧
      trimmed t = t ∧ containsChar t '\n' = false ∧ startsWith t ['['] = false) :
    setDefault db names appName sel [] (setDefault db names appName sel [] file).2 =
      setDefault db names appName sel [] file := by
  have h1 := setDefault_written db names appName sel [] file hf hw
  obtain ⟨hC, hA⟩ := setDefaultExisting_clean db sel [] file
  have hN : ∀ n ∈ sel.map (fun t => associationLine t (QHash.value names appName)),
      containsChar n '\n' = false ∧ trimmed n ≠ [] ∧ isHeader (trimmed n) = false ∧
        untouched db sel [] (trimmed n) = false := by
    intro n hn
    obtain ⟨t, ht, rfl⟩ := List.mem_map.mp hn
    obtain ⟨h1, h2, h3, h4, h5⟩ := hsel t ht
    exact associationLine_reread db sel [] t _ ht h1 h2 h3 h4 h5 hfn
  have hread := setDefaultRead_written db sel []
    (setDefaultExisting db sel [] file).existingContent
    (setDefaultExisting db sel [] file).existingAssociations
    (sel.map (fun t => associationLine t (QHash.value names appName))) hC hA hN
  have hout : writeLines (setDefaultExisting db sel [] file).existingContent ++ headerText ++
        writeLines (setDefaultSection db names appName sel [] file) =
      writeLines (setDefaultExisting db sel [] file).existingContent ++ headerText ++
        writeLines (setDefaultExisting db sel [] file).existingAssociations ++
        writeLines (sel.map (fun t => associationLine t (QHash.value names appName))) := by
    simp [setDefaultSection, writeLines_append, List.append_assoc]
  rw [hout] at h1
  rw [h1]
  have h2 := setDefault_written db names appName sel []
    ⟨some (writeLines (setDefaultExisting db sel [] file).existingContent ++ headerText ++
        writeLines (setDefaultExisting db sel [] file).existingAssociations ++
        writeLines (sel.map (fun t => associationLine t (QHash.value names appName)))), true⟩
    hf rfl
  have hex : ∀ X : Str, setDefaultExisting db sel [] ⟨some X, true⟩ =
      setDefaultRead db sel [] X := fun _ => rfl
  simp only [setDefaultSection, hex, hread.1, hread.2, writeLines_append] at h2
  rw [h2]
  simp [List.append_assoc]

theorem setDefault_idempotent_witness :
    setDefault identityDb [("app".toList, "app.desktop".toList)] "app".toList
        ["text/plain".toList] []
        (setDefault identityDb [("app".toList, "app.desktop".toList)] "app".toList
          ["text/plain".toList] []
          ⟨some "[Default Applications]\ntext/plain=old.desktop\nimage/png=b\n".toList,
            true⟩).2 =
      setDefault identityDb [("app".toList, "app.desktop".toList)] "app".toList
        ["text/plain".toList] []
        ⟨some "[Default Applications]\ntext/plain=old.desktop\nimage/png=b\n".toList, true⟩ :=
  setDefault_idempotent identityDb [("app".toList, "app.desktop".toList)] "app".toList
    ["text/plain".toList]
    ⟨some "[Default Applications]\ntext/plain=old.desktop\nimage/png=b\n".toList, true⟩
    (by decide) rfl (by decide)
    (by
      intro t ht
      rw [List.mem_singleton] at ht
      subst ht
      exact ⟨rfl, by decide, by decide, by decide, by decide⟩)

/-- C4 (claim as stated fails): a second application changes the file when the recorded
filename holds a line break, and when a selected canonical name starts with `[`, holds an
`=` or starts with a space. -/
theorem setDefault_idempotent_counterexample :
    (setDefault identityDb [("app".toList, "my\napp.desktop".toList)] "app".toList
          ["text/plain".toList] []
          (setDefault identityDb [("app".toList, "my\napp.desktop".toList)] "app".toList
            ["text/plain".toList] [] ⟨some [], true⟩).2 ≠
        setDefault identityDb [("app".toList, "my\napp.desktop".toList)] "app".toList
          ["text/plain".toList] [] ⟨some [], true⟩) ∧
    (setDefault identityDb [("app".toList, "app.desktop".toList)] "app".toList
          ["[x".toList] []
          (setDefault identityDb [("app".toList, "app.desktop".toList)] "app".toList
            ["[x".toList] [] ⟨some [], true⟩).2 ≠
        setDefault identityDb [("app".toList, "app.desktop".toList)] "app".toList
          ["[x".toList] [] ⟨some [], true⟩) ∧
    (setDefault identityDb [("app".toList, "app.desktop".toList)] "app".toList
          ["a=b".toList] []
          (setDefault identityDb [("app".toList, "app.desktop".toList)] "app".toList
            ["a=b".toList] [] ⟨some [], true⟩).2 ≠
        setDefault identityDb [("app".toList, "app.desktop".toList)] "app".toList
          ["a=b".toList] [] ⟨some [], true⟩) ∧
    (setDefault identityDb [("app".toList, "app.desktop".toList)] "app".toList
          [" a".toList] []
          (setDefault identityDb [("app".toList, "app.desktop".toList)] "app".toList
            [" a".toList] [] ⟨some [], true⟩).2 ≠
        setDefault identityDb [("app".toList, "app.desktop".toList)] "app".toList
          [" a".toList] [] ⟨some [], true⟩) := by
  decide

/-! ## Properties of `loadDesktopFile` -/

theorem startsWith_exec (l : Str) (h : startsWith l "Exec".toList = true) :
    startsWith l "MimeType".toList = false ∧ startsWith l "Name".toList = false ∧
      startsWith l "Icon".toList = false ∧ startsWith l ['['] = false := by
  cases l with
  | nil => exact absurd h (by decide)
  | cons c r =>
    have hc : c = 'E' := by
      simp only [startsWith, String.toList, List.isPrefixOf, Bool.and_eq_true, beq_iff_eq] at h
      exact h.1.symm
    subst hc
    simp [startsWith, List.isPrefixOf]

theorem loadDesktopFileStep_group (st : ParseState) (raw : Str) :
    (loadDesktopFileStep st raw).inCorrectGroup =
      if startsWith (simplified raw) ['['] = true then
        decide (simplified raw = desktopEntryHeader)
      else st.inCorrectGroup := by
  unfold loadDesktopFileStep
  simp only [desktopEntryHeader]
  split_ifs <;> rfl

theorem loadDesktopFileStep_appId (st : ParseState) (raw : Str) :
    (loadDesktopFileStep st raw).appId =
      if startsWith (simplified raw) ['['] = false ∧ st.inCorrectGroup = true ∧
          startsWith (simplified raw) "Exec".toList = true ∧
          removeThroughEquals (simplified raw) ≠ [] then
        execIdentity (removeThroughEquals (simplified raw))
      else st.appId := by
  by_cases he : startsWith (simplified raw) "Exec".toList = true
  · obtain ⟨h1, h2, h3, h4⟩ := startsWith_exec _ he
    unfold loadDesktopFileStep
    simp at h1 h2 h3 he
    cases hg : st.inCorrectGroup <;>
      by_cases hv : removeThroughEquals (simplified raw) = [] <;>
      simp [h1, h2, h3, h4, he, hg, hv]
  · unfold loadDesktopFileStep
    simp only [he, Bool.false_eq_true, false_and, and_false, if_false]
    split_ifs <;> rfl

theorem getLast?_cons' {α : Type} (x : α) (xs : List α) :
    (x :: xs).getLast? = some (xs.getLast?.getD x) := by
  cases xs with
  | nil => rfl
  | cons y ys => simp [List.getLast?_cons_cons, List.getLast?_eq_getLast, List.getLast?]

theorem execValuesOf_cons (l : Str) (ls : List Str) :
    execValuesOf (l :: ls) =
      if startsWith l "Exec".toList = true ∧ removeThroughEquals l ≠ [] then
        removeThroughEquals l :: execValuesOf ls
      else execValuesOf ls := by
  unfold execValuesOf
  by_cases he : startsWith l "Exec".toList = true
  · by_cases hv : removeThroughEquals l = []
    · have hv' : (!(removeThroughEquals l).isEmpty) = false := by simp [hv]
      simp only [List.filter_cons, he, if_true, List.map_cons, hv', Bool.false_eq_true,
        if_false, hv, ne_eq, not_true_eq_false, and_false]
      rfl
    · have hv' : (!(removeThroughEquals l).isEmpty) = true := by simpa using hv
      simp only [List.filter_cons, he, if_true, List.map_cons, hv', hv, ne_eq,
        not_false_eq_true, and_self]
  · simp only [List.filter_cons, he, Bool.false_eq_true, if_false, false_and]

theorem desktopEntryLines_cons (inside : Bool) (l : Str) (ls : List Str) :
    desktopEntryLines inside (l :: ls) =
      if startsWith l ['['] = true then desktopEntryLines (decide (l = desktopEntryHeader)) ls
      else if inside = true then l :: desktopEntryLines true ls
      else desktopEntryLines false ls := by
  cases inside <;> simp [desktopEntryLines]

theorem foldl_loadDesktopFileStep_appId (raws : List Str) :
    ∀ st : ParseState,
      (raws.foldl loadDesktopFileStep st).appId =
        match (execValuesOf
            (desktopEntryLines st.inCorrectGroup (raws.map simplified))).getLast? with
        | none => st.appId
        | some v => execIdentity v := by
  induction raws with
  | nil => intro st; simp [desktopEntryLines, execValuesOf]
  | cons r rs ih =>
    intro st
    simp only [List.foldl_cons, List.map_cons]
    rw [ih (loadDesktopFileStep st r), loadDesktopFileStep_group, loadDesktopFileStep_appId,
      desktopEntryLines_cons]
    by_cases hh : startsWith (simplified r) ['['] = true
    · rw [if_pos hh, if_pos hh, if_neg (by simp [hh])]
    · rw [if_neg hh, if_neg hh]
      have hh' : startsWith (simplified r) ['['] = false := by simpa using hh
      cases hg : st.inCorrectGroup with
      | false => rw [if_neg (by simp), if_neg (by simp)]
      | true =>
        rw [if_pos rfl, execValuesOf_cons]
        by_cases hc : startsWith (simplified r) "Exec".toList = true ∧
            removeThroughEquals (simplified r) ≠ []
        · rw [if_pos ⟨hh', rfl, hc.1, hc.2⟩, if_pos hc, getLast?_cons']
          cases (execValuesOf (desktopEntryLines true (List.map simplified rs))).getLast? <;> rfl
        · rw [if_neg (fun h => hc ⟨h.2.2.1, h.2.2.2⟩), if_neg hc]

theorem parseDesktopFile_appId (fileName content : Str) :
    (parseDesktopFile fileName content).appId =
      match (execValues content).getLast? with
      | none => fileName
      | some v => execIdentity v :=
  foldl_loadDesktopFileStep_appId (readLines content) _
theorem split_ne_nil (sep : Char) (s : Str) : split sep s ≠ [] := by
  cases s with
  | nil => simp [split]
  | cons c cs =>
    by_cases h : c = sep
    · simp [split, h]
    · simp only [split, h, if_false]
      cases split sep cs <;> simp

theorem split_cons_ne (sep c : Char) (cs : Str) (h : c ≠ sep) :
    split sep (c :: cs) = (c :: first (split sep cs)) :: (split sep cs).tail := by
  simp only [split, h, if_false]
  cases hs : split sep cs with
  | nil => exact absurd hs (split_ne_nil sep cs)
  | cons p ps => rfl

theorem okSpaces_tail (c : Char) (r : Str) (h : okSpaces (c :: r) = true) :
    okSpaces r = true := by
  cases r with
  | nil => rfl
  | cons d r' =>
    simp only [okSpaces, Bool.and_eq_true] at h
    exact h.2

theorem okSpaces_drop (n : Nat) : ∀ s : Str, okSpaces s = true → okSpaces (s.drop n) = true := by
  induction n with
  | zero => intro s h; simpa using h
  | succ k ih =>
    intro s h
    cases s with
    | nil => simpa using h
    | cons c r => exact ih r (okSpaces_tail c r h)

theorem okSpaces_collapse (s : Str) : okSpaces (collapse s) = true := by
  induction s with
  | nil => rfl
  | cons c cs ih =>
    by_cases hc : isSpace c = true
    · simp only [collapse, hc, if_true]
      cases hs : collapse cs with
      | nil => rfl
      | cons d r =>
        rw [hs] at ih
        by_cases hd : d = ' '
        · simpa [hd] using ih
        · simp [hd, okSpaces, ih]
    · have hne : c ≠ ' ' := by
        intro e
        rw [e] at hc
        exact hc (by decide)
      simp only [collapse, hc, Bool.false_eq_true, if_false]
      cases hs : collapse cs with
      | nil => simp [okSpaces, hne]
      | cons d r =>
        rw [hs] at ih
        simp [okSpaces, hne, ih]

theorem okSpaces_removeThroughEquals (raw : Str) :
    okSpaces (removeThroughEquals (simplified raw)) = true := by
  unfold removeThroughEquals remove0 simplified
  exact okSpaces_drop _ _ (okSpaces_collapse _)

theorem split_tail_nonempty (v : Str) (h : okSpaces v = true) :
    ∀ p ∈ (split ' ' v).tail, p ≠ [] := by
  induction v with
  | nil => intro p hp; simp [split] at hp
  | cons c cs ih =>
    have ih' := ih (okSpaces_tail c cs h)
    by_cases hc : c = ' '
    · subst hc
      cases cs with
      | nil => exact absurd h (by decide)
      | cons d r =>
        have hd : d ≠ ' ' := by
          intro e
          subst e
          simp [okSpaces] at h
        intro p hp
        have e1 : split ' ' (' ' :: d :: r) = [] :: split ' ' (d :: r) := by
          simp [split]
        rw [e1, List.tail_cons, split_cons_ne ' ' d r hd, List.mem_cons] at hp
        rcases hp with e | hp
        · rw [e]; simp
        · rw [split_cons_ne ' ' d r hd] at ih'
          exact ih' p hp
    · rw [split_cons_ne ' ' c cs hc]
      exact ih'

theorem tokens_eq_split (v : Str) (h : okSpaces v = true) (hne : v ≠ [])
    (hsp : startsWith v [' '] = false) : tokens v = split ' ' v := by
  cases v with
  | nil => exact absurd rfl hne
  | cons c cs =>
    have hc : c ≠ ' ' := by
      intro e
      subst e
      simp [startsWith, List.isPrefixOf] at hsp
    unfold tokens
    rw [List.filter_eq_self]
    intro p hp
    have htail := split_tail_nonempty (c :: cs) h
    rw [split_cons_ne ' ' c cs hc] at hp htail
    rcases List.mem_cons.mp hp with e | hp'
    · rw [e]; rfl
    · have := htail p hp'
      cases p with
      | nil => exact absurd rfl this
      | cons _ _ => rfl

theorem execIdentity_eq_tokens (v : Str) (h : okSpaces v = true) (hne : v ≠ [])
    (hsp : startsWith v [' '] = false) :
    execIdentity v =
      if (tokens v).head? = some "env".toList ∧ (tokens v).length > 2 then (tokens v).getD 2 []
      else (tokens v).headD [] := by
  rw [tokens_eq_split v h hne hsp]
  unfold execIdentity first
  cases hs : split ' ' v with
  | nil => exact absurd hs (split_ne_nil ' ' v)
  | cons p ps => simp

theorem mem_desktopEntryLines (L : List Str) :
    ∀ (b : Bool), ∀ l ∈ desktopEntryLines b L, l ∈ L := by
  induction L with
  | nil => intro b l hl; simp [desktopEntryLines] at hl
  | cons x xs ih =>
    intro b l hl
    rw [desktopEntryLines_cons] at hl
    split_ifs at hl with h1 h2
    · exact List.mem_cons_of_mem _ (ih _ l hl)
    · rcases List.mem_cons.mp hl with e | h
      · rw [e]; exact List.mem_cons_self _ _
      · exact List.mem_cons_of_mem _ (ih _ l h)
    · exact List.mem_cons_of_mem _ (ih _ l hl)

theorem execValues_ok (content : Str) :
    ∀ v ∈ execValues content, okSpaces v = true ∧ v ≠ [] := by
  intro v hv
  simp only [execValues, execValuesOf, List.mem_filter, List.mem_map, Bool.not_eq_true',
    List.isEmpty_eq_false] at hv
  obtain ⟨⟨l, ⟨hl, _⟩, rfl⟩, hne⟩ := hv
  have hmem := mem_desktopEntryLines _ _ l hl
  simp only [descriptorLines, List.mem_map] at hmem
  obtain ⟨raw, _, rfl⟩ := hmem
  exact ⟨okSpaces_removeThroughEquals raw, hne⟩

theorem parseDesktopFile_appId_derived (fileName content : Str)
    (hsp : ∀ v, (execValues content).getLast? = some v → startsWith v [' '] = false) :
    (parseDesktopFile fileName content).appId = derivedIdentity fileName content := by
  rw [parseDesktopFile_appId]
  unfold derivedIdentity
  cases hl : (execValues content).getLast? with
  | none => rfl
  | some v =>
    have hv := execValues_ok content v (List.mem_of_getLast?_eq_some hl)
    exact execIdentity_eq_tokens v hv.1 hv.2 (hsp v hl)
theorem loadMimeType_frame (db : QMimeDatabase) (appId : Str) (w : Widget) (t : Str) :
    (loadMimeType db appId w t).m_desktopFileNames = w.m_desktopFileNames ∧
      (loadMimeType db appId w t).m_applicationNames = w.m_applicationNames ∧
      (loadMimeType db appId w t).m_applicationIcons = w.m_applicationIcons := by
  unfold loadMimeType
  simp only
  split_ifs <;> exact ⟨rfl, rfl, rfl⟩

theorem foldl_loadMimeType_frame (db : QMimeDatabase) (appId : Str) (ts : List Str) :
    ∀ w : Widget,
      (ts.foldl (loadMimeType db appId) w).m_desktopFileNames = w.m_desktopFileNames ∧
        (ts.foldl (loadMimeType db appId) w).m_applicationNames = w.m_applicationNames ∧
        (ts.foldl (loadMimeType db appId) w).m_applicationIcons = w.m_applicationIcons := by
  induction ts with
  | nil => intro w; exact ⟨rfl, rfl, rfl⟩
  | cons t ts ih =>
    intro w
    obtain ⟨h1, h2, h3⟩ := ih (loadMimeType db appId w t)
    obtain ⟨g1, g2, g3⟩ := loadMimeType_frame db appId w t
    exact ⟨h1.trans g1, h2.trans g2, h3.trans g3⟩

theorem loadMimeType_keys (db : QMimeDatabase) (appId : Str) (w : Widget) (t : Str) :
    ∀ p ∈ (loadMimeType db appId w t).m_supportedMimetypes,
      p ∈ w.m_supportedMimetypes ∨ p.1 = appId := by
  intro p hp
  unfold loadMimeType at hp
  simp only at hp
  split_ifs at hp
  · exact Or.inl hp
  · exact Or.inl hp
  · exact Or.inl hp
  · simp only [QMultiHash.insert, List.mem_cons] at hp
    rcases hp with e | h
    · exact Or.inr (by rw [e])
    · exact Or.inl h

theorem foldl_loadMimeType_keys (db : QMimeDatabase) (appId : Str) (ts : List Str) :
    ∀ w : Widget, ∀ p ∈ (ts.foldl (loadMimeType db appId) w).m_supportedMimetypes,
      p ∈ w.m_supportedMimetypes ∨ p.1 = appId := by
  induction ts with
  | nil => intro w p hp; exact Or.inl hp
  | cons t ts ih =>
    intro w p hp
    rcases ih (loadMimeType db appId w t) p hp with h | h
    · exact loadMimeType_keys db appId w t p h
    · exact Or.inr h

theorem loadMimeType_unusable (db : QMimeDatabase) (appId : Str) (w : Widget) (t : Str)
    (h : usable db t = false) : loadMimeType db appId w t = w := by
  unfold loadMimeType
  simp only [usable, Bool.and_eq_false_iff, decide_eq_false_iff_not] at h
  simp only
  split_ifs with h1 h2 h3
  · rfl
  · rfl
  · rfl
  · exfalso
    rcases h with h | h
    · simp [h] at h1
    · exact h (by simpa using h3)

theorem foldl_loadMimeType_unusable (db : QMimeDatabase) (appId : Str) (ts : List Str) :
    ∀ w : Widget, (∀ t ∈ ts, usable db t = false) →
      ts.foldl (loadMimeType db appId) w = w := by
  induction ts with
  | nil => intro w _; rfl
  | cons t ts ih =>
    intro w h
    rw [List.foldl_cons, loadMimeType_unusable db appId w t (h t (List.mem_cons_self _ _))]
    exact ih w (fun x hx => h x (List.mem_cons_of_mem _ hx))

theorem QHash.value_insert_self {V : Type} [Inhabited V] (m : QHash V) (k : Str) (v : V) :
    QHash.value (QHash.insert m k v) k = v := by
  simp [QHash.value, QHash.insert, List.lookup]

theorem QHash.contains_insert_self {V : Type} (m : QHash V) (k : Str) (v : V) :
    QHash.contains (QHash.insert m k v) k = true := by
  simp [QHash.contains, QHash.insert, List.lookup]

theorem recordDesktopFile_fields (w : Widget) (fileName : Str) (p : ParseState) :
    (recordDesktopFile w fileName p).m_desktopFileNames =
        (if p.noDisplay = false ∨ QHash.contains w.m_desktopFileNames p.appId = false then
          QHash.insert w.m_desktopFileNames p.appId fileName
        else w.m_desktopFileNames) ∧
      (recordDesktopFile w fileName p).m_applicationIcons = w.m_applicationIcons ∧
      (recordDesktopFile w fileName p).m_applicationNames = w.m_applicationNames ∧
      (recordDesktopFile w fileName p).m_supportedMimetypes = w.m_supportedMimetypes ∧
      (recordDesktopFile w fileName p).m_applications = w.m_applications := by
  unfold recordDesktopFile
  cases p.noDisplay <;> cases QHash.contains w.m_desktopFileNames p.appId <;> simp

theorem recordNameAndIcon_fields (w : Widget) (p : ParseState) :
    (recordNameAndIcon w p).m_desktopFileNames = w.m_desktopFileNames ∧
      (recordNameAndIcon w p).m_applicationIcons =
        (if (p.noDisplay = false ∨ QHash.contains w.m_applicationIcons p.appId = false) ∧
            p.iconName ≠ [] then
          QHash.insert w.m_applicationIcons p.appId p.iconName
        else w.m_applicationIcons) ∧
      (recordNameAndIcon w p).m_applicationNames =
        (if (p.noDisplay = false ∨ QHash.contains w.m_applicationIcons p.appId = false) ∧
            p.iconName ≠ [] then
          QHash.insert w.m_applicationNames p.appId p.displayName
        else w.m_applicationNames) ∧
      (recordNameAndIcon w p).m_supportedMimetypes = w.m_supportedMimetypes ∧
      (recordNameAndIcon w p).m_applications = w.m_applications := by
  unfold recordNameAndIcon
  cases p.noDisplay <;> cases QHash.contains w.m_applicationIcons p.appId <;>
    by_cases hi : p.iconName = [] <;> simp [hi]

/-- The three maps after `ingest`, for a descriptor that declares a MIME type. -/
theorem ingest_maps (db : QMimeDatabase) (w : Widget) (fileName : Str) (p : ParseState)
    (hm : p.mimetypes ≠ []) :
    (ingest db w fileName p).m_desktopFileNames =
        (if p.noDisplay = false ∨ QHash.contains w.m_desktopFileNames p.appId = false then
          QHash.insert w.m_desktopFileNames p.appId fileName
        else w.m_desktopFileNames) ∧
      (ingest db w fileName p).m_applicationIcons =
        (if (p.noDisplay = false ∨ QHash.contains w.m_applicationIcons p.appId = false) ∧
            p.iconName ≠ [] then
          QHash.insert w.m_applicationIcons p.appId p.iconName
        else w.m_applicationIcons) ∧
      (ingest db w fileName p).m_applicationNames =
        (if (p.noDisplay = false ∨ QHash.contains w.m_applicationIcons p.appId = false) ∧
            p.iconName ≠ [] then
          QHash.insert w.m_applicationNames p.appId p.displayName
        else w.m_applicationNames) := by
  unfold ingest
  simp only [List.isEmpty_iff, hm, if_false]
  obtain ⟨h1, h2, h3⟩ := foldl_loadMimeType_frame db p.appId p.mimetypes
    (recordNameAndIcon (recordDesktopFile w fileName p) p)
  obtain ⟨a1, a2, a3, _, _⟩ := recordDesktopFile_fields w fileName p
  obtain ⟨b1, b2, b3, _, _⟩ := recordNameAndIcon_fields (recordDesktopFile w fileName p) p
  rw [h1, h2, h3, b1, b2, b3, a1, a2, a3]
  exact ⟨rfl, rfl, rfl⟩
/-- C8 (as amended): when loading a descriptor into the empty index records at least one
MIME type, and the last non-empty `Exec` value of its `[Desktop Entry]` section (if any)
does not begin with a space, the application is recorded under the filename when there is no
non-empty `Exec` value, and otherwise under the first whitespace-separated token of the last
one, or under its third token when the first token is `env` and there are at least three:
that identity is the only key of the filename map and the key of every recorded type. -/
theorem loadDesktopFile_identity (db : QMimeDatabase) (fileName content : Str)
    (hval : (loadDesktopFile db Widget.empty fileName (some content)).m_supportedMimetypes ≠ [])
    (hsp : ∀ v, (execValues content).getLast? = some v → startsWith v [' '] = false) :
    (loadDesktopFile db Widget.empty fileName (some content)).m_desktopFileNames =
        [(derivedIdentity fileName content, fileName)] ∧
      ∀ p ∈ (loadDesktopFile db Widget.empty fileName (some content)).m_supportedMimetypes,
        p.1 = derivedIdentity fileName content := by
  have hid := parseDesktopFile_appId_derived fileName content hsp
  have hm : (parseDesktopFile fileName content).mimetypes ≠ [] := by
    intro h
    apply hval
    simp [loadDesktopFile, ingest, h, Widget.empty]
  constructor
  · have h1 := (ingest_maps db Widget.empty fileName _ hm).1
    simp only [loadDesktopFile]
    rw [h1, hid]
    simp [Widget.empty, QHash.contains, QHash.insert]
  · intro p hp
    simp only [loadDesktopFile, ingest, List.isEmpty_iff, hm, if_false] at hp
    rcases foldl_loadMimeType_keys db _ _ _ p hp with h | h
    · rw [(recordNameAndIcon_fields _ _).2.2.2.1, (recordDesktopFile_fields _ _ _).2.2.2.1] at h
      simp [Widget.empty] at h
    · rw [h, hid]

theorem loadDesktopFile_identity_witness :
    ((loadDesktopFile identityDb Widget.empty "a.desktop".toList
          (some "[Desktop Entry]\nExec=env FOO=1 /usr/bin/real-app %f\nMimeType=text/plain;\n".toList)
        ).m_supportedMimetypes ≠ [] ∧
      ∀ v, (execValues
          "[Desktop Entry]\nExec=env FOO=1 /usr/bin/real-app %f\nMimeType=text/plain;\n".toList
        ).getLast? = some v → startsWith v [' '] = false) ∧
    ((loadDesktopFile identityDb Widget.empty "a.desktop".toList
          (some "[Desktop Entry]\nExec=env FOO=1 /usr/bin/real-app %f\nMimeType=text/plain;\n".toList)
        ).m_desktopFileNames =
        [(derivedIdentity "a.desktop".toList
          "[Desktop Entry]\nExec=env FOO=1 /usr/bin/real-app %f\nMimeType=text/plain;\n".toList,
          "a.desktop".toList)] ∧
      ∀ p ∈ (loadDesktopFile identityDb Widget.empty "a.desktop".toList
          (some "[Desktop Entry]\nExec=env FOO=1 /usr/bin/real-app %f\nMimeType=text/plain;\n".toList)
        ).m_supportedMimetypes,
        p.1 = derivedIdentity "a.desktop".toList
          "[Desktop Entry]\nExec=env FOO=1 /usr/bin/real-app %f\nMimeType=text/plain;\n".toList) :=
  ⟨⟨by decide, by
      intro v hv
      have e : (execValues
          "[Desktop Entry]\nExec=env FOO=1 /usr/bin/real-app %f\nMimeType=text/plain;\n".toList
        ).getLast? = some "env FOO=1 /usr/bin/real-app %f".toList := by decide
      rw [e] at hv
      cases hv
      decide⟩,
    loadDesktopFile_identity identityDb "a.desktop".toList
      "[Desktop Entry]\nExec=env FOO=1 /usr/bin/real-app %f\nMimeType=text/plain;\n".toList
      (by decide)
      (by
        intro v hv
        have e : (execValues
            "[Desktop Entry]\nExec=env FOO=1 /usr/bin/real-app %f\nMimeType=text/plain;\n".toList
          ).getLast? = some "env FOO=1 /usr/bin/real-app %f".toList := by decide
        rw [e] at hv
        cases hv
        decide)⟩

/-- C8 (claim as stated fails): with `Exec=env FOO=1` the identity is `env` although there
is no third token; with an empty `Exec=` the identity stays the filename although the section
has an `Exec` line; with `Exec = foo --bar` the identity is empty, not the first token `foo`. -/
theorem loadDesktopFile_identity_counterexample :
    ((loadDesktopFile identityDb Widget.empty "a.desktop".toList
          (some "[Desktop Entry]\nExec=env FOO=1\nMimeType=text/plain;\n".toList)) =
        ⟨[("env".toList, "a.desktop".toList)], [], [],
          [("env".toList, "text/plain".toList)], [("text".toList, ["env".toList])]⟩ ∧
      statedIdentity "a.desktop".toList
        "[Desktop Entry]\nExec=env FOO=1\nMimeType=text/plain;\n".toList = none) ∧
    ((loadDesktopFile identityDb Widget.empty "a.desktop".toList
          (some "[Desktop Entry]\nExec=\nMimeType=text/plain;\n".toList)) =
        ⟨[("a.desktop".toList, "a.desktop".toList)], [], [],
          [("a.desktop".toList, "text/plain".toList)], [("text".toList, ["a.desktop".toList])]⟩ ∧
      statedIdentity "a.desktop".toList
        "[Desktop Entry]\nExec=\nMimeType=text/plain;\n".toList = none) ∧
    ((loadDesktopFile identityDb Widget.empty "a.desktop".toList
          (some "[Desktop Entry]\nExec = foo --bar\nMimeType=text/plain;\n".toList)) =
        ⟨[([], "a.desktop".toList)], [], [],
          [([], "text/plain".toList)], [("text".toList, [[]])]⟩ ∧
      statedIdentity "a.desktop".toList
        "[Desktop Entry]\nExec = foo --bar\nMimeType=text/plain;\n".toList =
        some "foo".toList) := by
  decide

/-- C9 (as amended): when no declared MIME type of a descriptor is one the database accepts
with a two-part canonical name, `loadDesktopFile` leaves the association multimap and the
category buckets as they were; and when the descriptor declares no MIME type at all (the
`MimeType` list is absent or has no non-empty token), the whole index is unchanged. -/
theorem loadDesktopFile_without_usable_types (db : QMimeDatabase) (w : Widget)
    (fileName content : Str)
    (h : ∀ t ∈ (parseDesktopFile fileName content).mimetypes, usable db t = false) :
    (loadDesktopFile db w fileName (some content)).m_supportedMimetypes =
        w.m_supportedMimetypes ∧
      (loadDesktopFile db w fileName (some content)).m_applications = w.m_applications ∧
      ((parseDesktopFile fileName content).mimetypes = [] →
        loadDesktopFile db w fileName (some content) = w) := by
  simp only [loadDesktopFile, ingest]
  by_cases hm : (parseDesktopFile fileName content).mimetypes = []
  · simp [hm]
  · simp only [List.isEmpty_iff, hm, if_false, false_implies, and_true]
    rw [foldl_loadMimeType_unusable db _ _ _ h]
    rw [(recordNameAndIcon_fields _ _).2.2.2.1, (recordNameAndIcon_fields _ _).2.2.2.2,
      (recordDesktopFile_fields _ _ _).2.2.2.1, (recordDesktopFile_fields _ _ _).2.2.2.2]
    exact ⟨rfl, rfl⟩

theorem loadDesktopFile_without_usable_types_witness :
    (∀ t ∈ (parseDesktopFile "x.desktop".toList
        "[Desktop Entry]\nName=X\nIcon=x\nMimeType=application/x-bogus;\n".toList).mimetypes,
      usable rejectingDb t = false) ∧
    ((loadDesktopFile rejectingDb Widget.empty "x.desktop".toList
        (some "[Desktop Entry]\nName=X\nIcon=x\nMimeType=application/x-bogus;\n".toList)
      ).m_supportedMimetypes = Widget.empty.m_supportedMimetypes ∧
      (loadDesktopFile rejectingDb Widget.empty "x.desktop".toList
        (some "[Desktop Entry]\nName=X\nIcon=x\nMimeType=application/x-bogus;\n".toList)
      ).m_applications = Widget.empty.m_applications ∧
      ((parseDesktopFile "x.desktop".toList
          "[Desktop Entry]\nName=X\nIcon=x\nMimeType=application/x-bogus;\n".toList).mimetypes = [] →
        loadDesktopFile rejectingDb Widget.empty "x.desktop".toList
          (some "[Desktop Entry]\nName=X\nIcon=x\nMimeType=application/x-bogus;\n".toList) =
          Widget.empty)) :=
  ⟨by decide,
    loadDesktopFile_without_usable_types rejectingDb Widget.empty "x.desktop".toList
      "[Desktop Entry]\nName=X\nIcon=x\nMimeType=application/x-bogus;\n".toList (by decide)⟩

/-- C9 (claim as stated fails): a descriptor whose only MIME type token is rejected by the
database still gets its filename, name and icon recorded. -/
theorem loadDesktopFile_without_usable_types_counterexample :
    (∀ t ∈ (parseDesktopFile "x.desktop".toList
        "[Desktop Entry]\nName=X\nIcon=x\nMimeType=application/x-bogus;\n".toList).mimetypes,
      (rejectingDb.mimeTypeForName (qtrimmed t)).isValid = false) ∧
    loadDesktopFile rejectingDb Widget.empty "x.desktop".toList
        (some "[Desktop Entry]\nName=X\nIcon=x\nMimeType=application/x-bogus;\n".toList) =
      ⟨[("x.desktop".toList, "x.desktop".toList)], [("x.desktop".toList, "X".toList)],
        [("x.desktop".toList, "x".toList)], [], []⟩ ∧
    loadDesktopFile rejectingDb Widget.empty "x.desktop".toList
        (some "[Desktop Entry]\nName=X\nIcon=x\nMimeType=application/x-bogus;\n".toList) ≠
      Widget.empty := by
  decide
/-- C10 (as amended): for two descriptors that derive the same identity and each declare a
MIME type, one visible and one hidden, loading both into any index (the empty one included) in
either order leaves the stored desktop filename equal to the visible descriptor's filename;
and when the visible descriptor has a non-empty icon, the stored display name and icon are
the visible descriptor's name and icon. -/
theorem loadDesktopFile_visible_beats_hidden (db : QMimeDatabase) (w : Widget)
    (fv cv fh ch : Str)
    (hid : (parseDesktopFile fv cv).appId = (parseDesktopFile fh ch).appId)
    (hv : (parseDesktopFile fv cv).noDisplay = false)
    (hh : (parseDesktopFile fh ch).noDisplay = true)
    (hmv : (parseDesktopFile fv cv).mimetypes ≠ [])
    (hmh : (parseDesktopFile fh ch).mimetypes ≠ []) :
    (QHash.value (loadDesktopFile db (loadDesktopFile db w fv (some cv)) fh
          (some ch)).m_desktopFileNames (parseDesktopFile fv cv).appId = fv ∧
      QHash.value (loadDesktopFile db (loadDesktopFile db w fh (some ch)) fv
          (some cv)).m_desktopFileNames (parseDesktopFile fv cv).appId = fv) ∧
    ((parseDesktopFile fv cv).iconName ≠ [] →
      (QHash.value (loadDesktopFile db (loadDesktopFile db w fv (some cv)) fh
            (some ch)).m_applicationNames (parseDesktopFile fv cv).appId =
          (parseDesktopFile fv cv).displayName ∧
        QHash.value (loadDesktopFile db (loadDesktopFile db w fv (some cv)) fh
            (some ch)).m_applicationIcons (parseDesktopFile fv cv).appId =
          (parseDesktopFile fv cv).iconName) ∧
      (QHash.value (loadDesktopFile db (loadDesktopFile db w fh (some ch)) fv
            (some cv)).m_applicationNames (parseDesktopFile fv cv).appId =
          (parseDesktopFile fv cv).displayName ∧
        QHash.value (loadDesktopFile db (loadDesktopFile db w fh (some ch)) fv
            (some cv)).m_applicationIcons (parseDesktopFile fv cv).appId =
          (parseDesktopFile fv cv).iconName)) := by
  simp only [loadDesktopFile]
  obtain ⟨v1, v2, v3⟩ := ingest_maps db w fv _ hmv
  obtain ⟨a1, a2, a3⟩ := ingest_maps db (ingest db w fv (parseDesktopFile fv cv)) fh _ hmh
  obtain ⟨b1, b2, b3⟩ := ingest_maps db (ingest db w fh (parseDesktopFile fh ch)) fv _ hmv
  refine ⟨⟨?_, ?_⟩, ?_⟩
  · rw [a1, v1, ← hid]
    simp [hv, hh, QHash.contains_insert_self, QHash.value_insert_self]
  · rw [b1]
    simp [hv, QHash.value_insert_self]
  · intro hi
    refine ⟨⟨?_, ?_⟩, ⟨?_, ?_⟩⟩
    · rw [a3, v2, v3, ← hid]
      simp [hv, hh, hi, QHash.contains_insert_self, QHash.value_insert_self]
    · rw [a2, v2, ← hid]
      simp [hv, hh, hi, QHash.contains_insert_self, QHash.value_insert_self]
    · rw [b3]
      simp [hv, hi, QHash.value_insert_self]
    · rw [b2]
      simp [hv, hi, QHash.value_insert_self]

theorem loadDesktopFile_visible_beats_hidden_witness :
    ((parseDesktopFile "viewer.desktop".toList
          "[Desktop Entry]\nName=Viewer\nIcon=view\nExec=viewer %f\nMimeType=image/png;\n".toList
        ).appId =
        (parseDesktopFile "viewer-open.desktop".toList
          ("[Desktop Entry]\nName=Open\nIcon=open\nExec=viewer --open\nNoDisplay=true\n" ++
            "MimeType=image/png;\n").toList).appId ∧
      (parseDesktopFile "viewer.desktop".toList
          "[Desktop Entry]\nName=Viewer\nIcon=view\nExec=viewer %f\nMimeType=image/png;\n".toList
        ).noDisplay = false ∧
      (parseDesktopFile "viewer-open.desktop".toList
          ("[Desktop Entry]\nName=Open\nIcon=open\nExec=viewer --open\nNoDisplay=true\n" ++
            "MimeType=image/png;\n").toList).noDisplay = true) ∧
    QHash.value (loadDesktopFile identityDb (loadDesktopFile identityDb Widget.empty
          "viewer.desktop".toList
          (some "[Desktop Entry]\nName=Viewer\nIcon=view\nExec=viewer %f\nMimeType=image/png;\n".toList))
        "viewer-open.desktop".toList
        (some ("[Desktop Entry]\nName=Open\nIcon=open\nExec=viewer --open\nNoDisplay=true\n" ++
            "MimeType=image/png;\n").toList)).m_desktopFileNames
      (parseDesktopFile "viewer.desktop".toList
        "[Desktop Entry]\nName=Viewer\nIcon=view\nExec=viewer %f\nMimeType=image/png;\n".toList
      ).appId = "viewer.desktop".toList :=
  ⟨⟨by decide, by decide, by decide⟩,
    (loadDesktopFile_visible_beats_hidden identityDb Widget.empty "viewer.desktop".toList
      "[Desktop Entry]\nName=Viewer\nIcon=view\nExec=viewer %f\nMimeType=image/png;\n".toList
      "viewer-open.desktop".toList
      ("[Desktop Entry]\nName=Open\nIcon=open\nExec=viewer --open\nNoDisplay=true\n" ++
        "MimeType=image/png;\n").toList
      (by decide) (by decide) (by decide) (by decide) (by decide)).1.1⟩

/-- C10 (claim as stated fails): a visible descriptor without icon and a hidden one with an
icon, both for `viewer` and both declaring `image/png`: after loading the visible one and then
the hidden one into the empty index, the stored name and icon are the hidden descriptor's. -/
theorem loadDesktopFile_visible_beats_hidden_counterexample :
    ((parseDesktopFile "viewer.desktop".toList
          "[Desktop Entry]\nName=Viewer\nExec=viewer %f\nMimeType=image/png;\n".toList) =
        ⟨["image/png".toList], "Viewer".toList, "viewer".toList, [], true, false⟩ ∧
      (parseDesktopFile "viewer-open.desktop".toList
          ("[Desktop Entry]\nName=Open\nIcon=open\nExec=viewer --open\nNoDisplay=true\n" ++
            "MimeType=image/png;\n").toList) =
        ⟨["image/png".toList], "Open".toList, "viewer".toList, "open".toList, true, true⟩ ∧
      usable identityDb "image/png".toList = true) ∧
    loadDesktopFile identityDb (loadDesktopFile identityDb Widget.empty
          "viewer.desktop".toList
          (some "[Desktop Entry]\nName=Viewer\nExec=viewer %f\nMimeType=image/png;\n".toList))
        "viewer-open.desktop".toList
        (some ("[Desktop Entry]\nName=Open\nIcon=open\nExec=viewer --open\nNoDisplay=true\n" ++
            "MimeType=image/png;\n").toList) =
      ⟨[("viewer".toList, "viewer.desktop".toList)], [("viewer".toList, "Open".toList)],
        [("viewer".toList, "open".toList)], [("viewer".toList, "image/png".toList)],
        [("image".toList, ["viewer".toList])]⟩ := by
  decide

/-! ## Properties of the index built by a scan -/

theorem QMultiHash.contains_iff (m : QMultiHash) (k v : Str) :
    QMultiHash.contains m k v = true ↔ (k, v) ∈ m := by
  simp [QMultiHash.contains]

theorem loadMimeType_supported (db : QMimeDatabase) (appId : Str) (w : Widget) (t : Str) :
    (loadMimeType db appId w t).m_supportedMimetypes = w.m_supportedMimetypes ∨
      (usable db t = true ∧
        (appId, (db.mimeTypeForName (qtrimmed t)).name) ∉ w.m_supportedMimetypes ∧
        (loadMimeType db appId w t).m_supportedMimetypes =
          (appId, (db.mimeTypeForName (qtrimmed t)).name) :: w.m_supportedMimetypes ∧
        (loadMimeType db appId w t).m_applications =
          QHash.insert w.m_applications
            (qtrimmed ((split '/' (db.mimeTypeForName (qtrimmed t)).name).getD 0 []))
            (QSet.insert (QHash.value w.m_applications
              (qtrimmed ((split '/' (db.mimeTypeForName (qtrimmed t)).name).getD 0 []))) appId)) := by
  unfold loadMimeType
  simp only
  split_ifs with h1 h2 h3
  · exact Or.inl rfl
  · exact Or.inl rfl
  · exact Or.inl rfl
  · refine Or.inr ⟨?_, ?_, rfl, rfl⟩
    · simp only [usable, Bool.and_eq_true, decide_eq_true_eq]
      exact ⟨by simpa using h1, by simpa using h3⟩
    · intro hc
      exact h2 ((QMultiHash.contains_iff _ _ _).mpr hc)

theorem loadMimeType_mono (db : QMimeDatabase) (appId : Str) (w : Widget) (t : Str) :
    ∀ p ∈ w.m_supportedMimetypes, p ∈ (loadMimeType db appId w t).m_supportedMimetypes := by
  intro p hp
  rcases loadMimeType_supported db appId w t with h | ⟨_, _, h, _⟩
  · rw [h]; exact hp
  · rw [h]; exact List.mem_cons_of_mem _ hp

theorem loadMimeType_nodup (db : QMimeDatabase) (appId : Str) (w : Widget) (t : Str)
    (hn : w.m_supportedMimetypes.Nodup) :
    (loadMimeType db appId w t).m_supportedMimetypes.Nodup := by
  rcases loadMimeType_supported db appId w t with h | ⟨_, hnot, h, _⟩
  · rw [h]; exact hn
  · rw [h]; exact List.nodup_cons.mpr ⟨hnot, hn⟩

theorem loadMimeType_recorded (db : QMimeDatabase) (appId : Str) (w : Widget) (t : Str)
    (hu : usable db t = true) :
    (appId, (db.mimeTypeForName (qtrimmed t)).name) ∈
      (loadMimeType db appId w t).m_supportedMimetypes := by
  by_cases hc : (appId, (db.mimeTypeForName (qtrimmed t)).name) ∈ w.m_supportedMimetypes
  · exact loadMimeType_mono db appId w t _ hc
  · rcases loadMimeType_supported db appId w t with h | ⟨_, _, h, _⟩
    · exfalso
      simp only [usable, Bool.and_eq_true, decide_eq_true_eq] at hu
      unfold loadMimeType at h
      simp only [hu.1, Bool.not_true, Bool.false_eq_true, if_false,
        (QMultiHash.contains_iff _ _ _).not.mpr hc, hu.2, ne_eq, not_true_eq_false,
        QMultiHash.insert] at h
      exact List.cons_ne_self _ _ h
    · rw [h]; exact List.mem_cons_self _ _

theorem loadMimeType_known (db : QMimeDatabase) (appId : Str) (w : Widget) (t : Str)
    (h : usable db t = true →
      (appId, (db.mimeTypeForName (qtrimmed t)).name) ∈ w.m_supportedMimetypes) :
    loadMimeType db appId w t = w := by
  cases hu : usable db t with
  | false => exact loadMimeType_unusable db appId w t hu
  | true =>
    have hc := (QMultiHash.contains_iff _ _ _).mpr (h hu)
    unfold loadMimeType
    simp only [usable, Bool.and_eq_true, decide_eq_true_eq] at hu
    simp [hu.1, hc]

theorem foldl_loadMimeType_mono (db : QMimeDatabase) (appId : Str) (ts : List Str) :
    ∀ w : Widget, ∀ p ∈ w.m_supportedMimetypes,
      p ∈ (ts.foldl (loadMimeType db appId) w).m_supportedMimetypes := by
  induction ts with
  | nil => intro w p hp; exact hp
  | cons t ts ih =>
    intro w p hp
    exact ih _ p (loadMimeType_mono db appId w t p hp)

theorem foldl_loadMimeType_nodup (db : QMimeDatabase) (appId : Str) (ts : List Str) :
    ∀ w : Widget, w.m_supportedMimetypes.Nodup →
      (ts.foldl (loadMimeType db appId) w).m_supportedMimetypes.Nodup := by
  induction ts with
  | nil => intro w h; exact h
  | cons t ts ih =>
    intro w h
    exact ih _ (loadMimeType_nodup db appId w t h)

theorem foldl_loadMimeType_recorded (db : QMimeDatabase) (appId : Str) (ts : List Str) :
    ∀ w : Widget, ∀ t ∈ ts, usable db t = true →
      (appId, (db.mimeTypeForName (qtrimmed t)).name) ∈
        (ts.foldl (loadMimeType db appId) w).m_supportedMimetypes := by
  induction ts with
  | nil => intro w t ht; simp at ht
  | cons a as ih =>
    intro w t ht hu
    rcases List.mem_cons.mp ht with e | h
    · subst e
      exact foldl_loadMimeType_mono db appId as _ _ (loadMimeType_recorded db appId w t hu)
    · exact ih _ t h hu

theorem foldl_loadMimeType_known (db : QMimeDatabase) (appId : Str) (ts : List Str) :
    ∀ w : Widget,
      (∀ t ∈ ts, usable db t = true →
        (appId, (db.mimeTypeForName (qtrimmed t)).name) ∈ w.m_supportedMimetypes) →
      ts.foldl (loadMimeType db appId) w = w := by
  induction ts with
  | nil => intro w _; rfl
  | cons a as ih =>
    intro w h
    rw [List.foldl_cons, loadMimeType_known db appId w a (h a (List.mem_cons_self _ _))]
    exact ih w (fun t ht => h t (List.mem_cons_of_mem _ ht))

theorem recorded_supported (w : Widget) (fileName : Str) (p : ParseState) :
    (recordNameAndIcon (recordDesktopFile w fileName p) p).m_supportedMimetypes =
      w.m_supportedMimetypes := by
  rw [(recordNameAndIcon_fields _ _).2.2.2.1, (recordDesktopFile_fields _ _ _).2.2.2.1]

theorem recorded_applications (w : Widget) (fileName : Str) (p : ParseState) :
    (recordNameAndIcon (recordDesktopFile w fileName p) p).m_applications =
      w.m_applications := by
  rw [(recordNameAndIcon_fields _ _).2.2.2.2, (recordDesktopFile_fields _ _ _).2.2.2.2]

theorem ingest_of_ne (db : QMimeDatabase) (w : Widget) (fileName : Str) (p : ParseState)
    (hm : p.mimetypes ≠ []) :
    ingest db w fileName p =
      p.mimetypes.foldl (loadMimeType db p.appId)
        (recordNameAndIcon (recordDesktopFile w fileName p) p) := by
  simp [ingest, hm]

theorem loadDesktopFile_mono (db : QMimeDatabase) (w : Widget) (fileName : Str)
    (file : Option Str) :
    ∀ p ∈ w.m_supportedMimetypes,
      p ∈ (loadDesktopFile db w fileName file).m_supportedMimetypes := by
  intro p hp
  cases file with
  | none => exact hp
  | some content =>
    simp only [loadDesktopFile, ingest]
    split_ifs
    · exact hp
    · apply foldl_loadMimeType_mono
      rw [recorded_supported]
      exact hp

theorem loadDesktopFile_nodup (db : QMimeDatabase) (w : Widget) (fileName : Str)
    (file : Option Str) (hn : w.m_supportedMimetypes.Nodup) :
    (loadDesktopFile db w fileName file).m_supportedMimetypes.Nodup := by
  cases file with
  | none => exact hn
  | some content =>
    simp only [loadDesktopFile, ingest]
    split_ifs
    · exact hn
    · apply foldl_loadMimeType_nodup
      rw [recorded_supported]
      exact hn

/-- Every property that holds of the empty index and is kept by `loadDesktopFile` holds
after a scan. -/
theorem loadDesktopFiles_induction (db : QMimeDatabase) (P : Widget → Prop)
    (h0 : P Widget.empty)
    (hstep : ∀ (w : Widget) (fileName : Str) (file : Option Str),
      P w → P (loadDesktopFile db w fileName file))
    (files : List (Str × Option Str)) : P (loadDesktopFiles db Widget.empty files) := by
  have hgen : ∀ w, P w → P (loadDesktopFiles db w files) := by
    induction files with
    | nil => intro w hw; exact hw
    | cons f fs ih =>
      intro w hw
      exact ih _ (hstep w f.1 f.2 hw)
  exact hgen _ h0

/-- C11: for every index, resolver and descriptor file, loading the same file a second
time leaves the association multimap as the first load made it. -/
theorem loadDesktopFile_twice (db : QMimeDatabase) (w : Widget) (fileName : Str)
    (file : Option Str) :
    (loadDesktopFile db (loadDesktopFile db w fileName file) fileName file).m_supportedMimetypes
      = (loadDesktopFile db w fileName file).m_supportedMimetypes := by
  cases file with
  | none => rfl
  | some content =>
    simp only [loadDesktopFile]
    by_cases hm : (parseDesktopFile fileName content).mimetypes = []
    · simp [ingest, hm]
    · have h1 : ∀ t ∈ (parseDesktopFile fileName content).mimetypes, usable db t = true →
          ((parseDesktopFile fileName content).appId, (db.mimeTypeForName (qtrimmed t)).name) ∈
            (ingest db w fileName (parseDesktopFile fileName content)).m_supportedMimetypes := by
        intro t ht hu
        simp only [ingest, List.isEmpty_iff, hm, if_false]
        exact foldl_loadMimeType_recorded db _ _ _ t ht hu
      have h2 : ingest db (ingest db w fileName (parseDesktopFile fileName content)) fileName
            (parseDesktopFile fileName content) =
          recordNameAndIcon (recordDesktopFile
            (ingest db w fileName (parseDesktopFile fileName content)) fileName
            (parseDesktopFile fileName content)) (parseDesktopFile fileName content) := by
        rw [ingest_of_ne db (ingest db w fileName (parseDesktopFile fileName content)) fileName
          _ hm]
        apply foldl_loadMimeType_known
        intro t ht hu
        rw [recorded_supported]
        exact h1 t ht hu
      rw [h2, recorded_supported]

/-- C12: after every scan that starts from the empty index the association multimap holds
no (identity, type) pair twice, and every pair it holds is still there after one more call
of `loadDesktopFile`, whatever the descriptor is. -/
theorem loadDesktopFiles_additive (db : QMimeDatabase) (files : List (Str × Option Str))
    (fileName : Str) (file : Option Str) :
    (loadDesktopFiles db Widget.empty files).m_supportedMimetypes.Nodup ∧
      ∀ p ∈ (loadDesktopFiles db Widget.empty files).m_supportedMimetypes,
        p ∈ (loadDesktopFile db (loadDesktopFiles db Widget.empty files) fileName
          file).m_supportedMimetypes := by
  refine ⟨?_, loadDesktopFile_mono db _ fileName file⟩
  apply loadDesktopFiles_induction db (fun w => w.m_supportedMimetypes.Nodup)
  · exact List.nodup_nil
  · intro w f c hw
    exact loadDesktopFile_nodup db w f c hw

/-- C13: with a resolver that maps `image/png` and `image/jpeg` to themselves, loading
`b.desktop` (`Name=Viewer`, `MimeType=image/png;image/jpeg;`) into the empty index records the
identity `b.desktop` with exactly the two associations and puts it in the category `image`;
then `setDefault` for `b.desktop` and `image/png` on an empty or an absent document writes a
document whose `[Default Applications]` section is the single line `image/png=b.desktop`. -/
theorem scenario_b_desktop (db : QMimeDatabase)
    (hpng : db.mimeTypeForName "image/png".toList = ⟨"image/png".toList⟩)
    (hjpeg : db.mimeTypeForName "image/jpeg".toList = ⟨"image/jpeg".toList⟩) :
    loadDesktopFile db Widget.empty "b.desktop".toList (some bDesktop) =
        ⟨[("b.desktop".toList, "b.desktop".toList)], [], [],
          [("b.desktop".toList, "image/jpeg".toList), ("b.desktop".toList, "image/png".toList)],
          [("image".toList, ["b.desktop".toList])]⟩ ∧
      setDefault db
          (loadDesktopFile db Widget.empty "b.desktop".toList (some bDesktop)).m_desktopFileNames
          "b.desktop".toList ["image/png".toList] [] ⟨some [], true⟩ =
        (SetDefaultResult.success,
          ⟨some "\n[Default Applications]\nimage/png=b.desktop\n".toList, true⟩) ∧
      setDefault db
          (loadDesktopFile db Widget.empty "b.desktop".toList (some bDesktop)).m_desktopFileNames
          "b.desktop".toList ["image/png".toList] [] ⟨none, true⟩ =
        (SetDefaultResult.success,
          ⟨some "\n[Default Applications]\nimage/png=b.desktop\n".toList, true⟩) := by
  have hp : parseDesktopFile "b.desktop".toList bDesktop =
      ⟨["image/png".toList, "image/jpeg".toList], "Viewer".toList, "b.desktop".toList, [],
        true, false⟩ := by decide
  have hq1 : qtrimmed "image/png".toList = "image/png".toList := by decide
  have hq2 : qtrimmed "image/jpeg".toList = "image/jpeg".toList := by decide
  have hs1 : split '/' "image/png".toList = ["image".toList, "png".toList] := by decide
  have hs2 : split '/' "image/jpeg".toList = ["image".toList, "jpeg".toList] := by decide
  have hq3 : qtrimmed "image".toList = "image".toList := by decide
  have hload : loadDesktopFile db Widget.empty "b.desktop".toList (some bDesktop) =
      ⟨[("b.desktop".toList, "b.desktop".toList)], [], [],
        [("b.desktop".toList, "image/jpeg".toList), ("b.desktop".toList, "image/png".toList)],
        [("image".toList, ["b.desktop".toList])]⟩ := by
    simp only [loadDesktopFile, hp, ingest, List.isEmpty_cons, Bool.false_eq_true, if_false,
      List.foldl_cons, List.foldl_nil]
    have hw : recordNameAndIcon (recordDesktopFile Widget.empty "b.desktop".toList
        ⟨["image/png".toList, "image/jpeg".toList], "Viewer".toList, "b.desktop".toList, [],
          true, false⟩)
        ⟨["image/png".toList, "image/jpeg".toList], "Viewer".toList, "b.desktop".toList, [],
          true, false⟩ = ⟨[("b.desktop".toList, "b.desktop".toList)], [], [], [], []⟩ := by
      decide
    rw [hw]
    have h1 : loadMimeType db "b.desktop".toList
        ⟨[("b.desktop".toList, "b.desktop".toList)], [], [], [], []⟩ "image/png".toList =
        ⟨[("b.desktop".toList, "b.desktop".toList)], [], [],
          [("b.desktop".toList, "image/png".toList)],
          [("image".toList, ["b.desktop".toList])]⟩ := by
      unfold loadMimeType
      rw [hq1, hpng]
      simp only [hs1, hq3]
      decide
    rw [h1]
    unfold loadMimeType
    rw [hq2, hjpeg]
    simp only [hs2, hq3]
    decide
  refine ⟨hload, ?_, ?_⟩
  · rw [hload]
    have hr : setDefaultExisting db ["image/png".toList] [] ⟨some [], true⟩ = ⟨false, [], []⟩ :=
      rfl
    unfold setDefault
    simp only [hr]
    decide
  · rw [hload]
    have hr : setDefaultExisting db ["image/png".toList] [] ⟨none, true⟩ = ⟨false, [], []⟩ :=
      rfl
    unfold setDefault
    simp only [hr]
    decide

theorem scenario_b_desktop_witness :
    loadDesktopFile identityDb Widget.empty "b.desktop".toList (some bDesktop) =
        ⟨[("b.desktop".toList, "b.desktop".toList)], [], [],
          [("b.desktop".toList, "image/jpeg".toList), ("b.desktop".toList, "image/png".toList)],
          [("image".toList, ["b.desktop".toList])]⟩ ∧
      setDefault identityDb
          (loadDesktopFile identityDb Widget.empty "b.desktop".toList
            (some bDesktop)).m_desktopFileNames
          "b.desktop".toList ["image/png".toList] [] ⟨some [], true⟩ =
        (SetDefaultResult.success,
          ⟨some "\n[Default Applications]\nimage/png=b.desktop\n".toList, true⟩) ∧
      setDefault identityDb
          (loadDesktopFile identityDb Widget.empty "b.desktop".toList
            (some bDesktop)).m_desktopFileNames
          "b.desktop".toList ["image/png".toList] [] ⟨none, true⟩ =
        (SetDefaultResult.success,
          ⟨some "\n[Default Applications]\nimage/png=b.desktop\n".toList, true⟩) :=
  scenario_b_desktop identityDb rfl rfl

/-- C14 (as amended): with a resolver that maps `text/plain` to itself, loading `a.desktop`
(`Exec=env FOO=1 /usr/bin/real-app`, `MimeType=text/plain;`) into the empty index records the
application under the identity `/usr/bin/real-app`, the third field of the `Exec` value as it
is written. -/
theorem scenario_a_desktop (db : QMimeDatabase)
    (htext : db.mimeTypeForName "text/plain".toList = ⟨"text/plain".toList⟩) :
    loadDesktopFile db Widget.empty "a.desktop".toList (some aDesktop) =
      ⟨[("/usr/bin/real-app".toList, "a.desktop".toList)], [], [],
        [("/usr/bin/real-app".toList, "text/plain".toList)],
        [("text".toList, ["/usr/bin/real-app".toList])]⟩ := by
  have hp : parseDesktopFile "a.desktop".toList aDesktop =
      ⟨["text/plain".toList], [], "/usr/bin/real-app".toList, [], true, false⟩ := by decide
  have hq1 : qtrimmed "text/plain".toList = "text/plain".toList := by decide
  have hs1 : split '/' "text/plain".toList = ["text".toList, "plain".toList] := by decide
  have hq3 : qtrimmed "text".toList = "text".toList := by decide
  simp only [loadDesktopFile, hp, ingest, List.isEmpty_cons, Bool.false_eq_true, if_false,
    List.foldl_cons, List.foldl_nil]
  have hw : recordNameAndIcon (recordDesktopFile Widget.empty "a.desktop".toList
      ⟨["text/plain".toList], [], "/usr/bin/real-app".toList, [], true, false⟩)
      ⟨["text/plain".toList], [], "/usr/bin/real-app".toList, [], true, false⟩ =
      ⟨[("/usr/bin/real-app".toList, "a.desktop".toList)], [], [], [], []⟩ := by
    decide
  rw [hw]
  unfold loadMimeType
  rw [hq1, htext]
  simp only [hs1, hq3]
  decide

theorem scenario_a_desktop_witness :
    identityDb.mimeTypeForName "text/plain".toList = ⟨"text/plain".toList⟩ ∧
    loadDesktopFile identityDb Widget.empty "a.desktop".toList (some aDesktop) =
      ⟨[("/usr/bin/real-app".toList, "a.desktop".toList)], [], [],
        [("/usr/bin/real-app".toList, "text/plain".toList)],
        [("text".toList, ["/usr/bin/real-app".toList])]⟩ :=
  ⟨rfl, scenario_a_desktop identityDb rfl⟩

/-- C14 (claim as stated fails): after loading `a.desktop` nothing is recorded under the
identity `real-app`; the only key of the filename map and of the associations is
`/usr/bin/real-app`. -/
theorem scenario_a_desktop_counterexample :
    QHash.contains (loadDesktopFile identityDb Widget.empty "a.desktop".toList
        (some aDesktop)).m_desktopFileNames "real-app".toList = false ∧
    (loadDesktopFile identityDb Widget.empty "a.desktop".toList
        (some aDesktop)).m_desktopFileNames.map Prod.fst = ["/usr/bin/real-app".toList] ∧
    (loadDesktopFile identityDb Widget.empty "a.desktop".toList
        (some aDesktop)).m_supportedMimetypes.map Prod.fst = ["/usr/bin/real-app".toList] := by
  decide

theorem loadDesktopFileStep_eq (st : ParseState) (raw : Str) :
    loadDesktopFileStep st raw =
      if startsWith (simplified raw) ['['] = true then
        { st with inCorrectGroup := decide (simplified raw = desktopEntryHeader) }
      else if st.inCorrectGroup = true then interpretEntryLine st (simplified raw)
      else st := by
  unfold loadDesktopFileStep interpretEntryLine
  by_cases hh : startsWith (simplified raw) ['['] = true
  · simp only [hh, if_true]; rfl
  · cases hg : st.inCorrectGroup with
    | false => simp only [hh, Bool.false_eq_true, if_false, Bool.not_false, if_true]
    | true => simp only [hh, Bool.false_eq_true, if_false, Bool.not_true, if_true]

theorem interpretEntryLine_group (st : ParseState) (line : Str) (b : Bool) :
    interpretEntryLine { st with inCorrectGroup := b } line =
      { interpretEntryLine st line with inCorrectGroup := b } := by
  unfold interpretEntryLine
  simp only
  split_ifs <;> rfl

theorem interpretEntryLine_inCorrectGroup (st : ParseState) (line : Str) :
    (interpretEntryLine st line).inCorrectGroup = st.inCorrectGroup := by
  unfold interpretEntryLine
  split_ifs <;> rfl

theorem foldl_loadDesktopFileStep_eq (raws : List Str) :
    ∀ st : ParseState,
      { raws.foldl loadDesktopFileStep st with inCorrectGroup := true } =
        (desktopEntryLines st.inCorrectGroup (raws.map simplified)).foldl interpretEntryLine
          { st with inCorrectGroup := true } := by
  induction raws with
  | nil => intro st; simp [desktopEntryLines]
  | cons r rs ih =>
    intro st
    simp only [List.foldl_cons, List.map_cons]
    rw [ih (loadDesktopFileStep st r), desktopEntryLines_cons, loadDesktopFileStep_eq]
    by_cases hh : startsWith (simplified r) ['['] = true
    · rw [if_pos hh, if_pos hh]
    · rw [if_neg hh, if_neg hh]
      cases hg : st.inCorrectGroup with
      | false => rw [if_neg (by simp), if_neg (by simp), hg]
      | true =>
        rw [if_pos rfl, if_pos rfl, interpretEntryLine_inCorrectGroup, hg, List.foldl_cons]
        congr 1
        exact (interpretEntryLine_group st (simplified r) true).symm

theorem startsWith_name (l : Str) (h : startsWith l "Name".toList = true) :
    startsWith l "MimeType".toList = false := by
  cases l with
  | nil => exact absurd h (by decide)
  | cons c r =>
    have hc : c = 'N' := by
      simp only [startsWith, String.toList, List.isPrefixOf, Bool.and_eq_true, beq_iff_eq] at h
      exact h.1.symm
    subst hc
    simp [startsWith, List.isPrefixOf]

theorem interpretEntryLine_appName (st : ParseState) (l : Str) :
    (interpretEntryLine st l).appName =
      if (startsWith l "Name".toList && !containsChar l '[') = true then removeThroughEquals l
      else st.appName := by
  unfold interpretEntryLine
  by_cases hn : (startsWith l "Name".toList && !containsChar l '[') = true
  · have hm : startsWith l "MimeType".toList = false :=
      startsWith_name l (by
        simp only [Bool.and_eq_true] at hn
        exact hn.1)
    rw [if_neg (by rw [hm]; decide), if_pos hn, if_pos hn]
  · rw [if_neg hn]
    split_ifs <;> rfl

theorem nameValuesOf_cons (l : Str) (ls : List Str) :
    nameValuesOf (l :: ls) =
      if (startsWith l "Name".toList && !containsChar l '[') = true then
        removeThroughEquals l :: nameValuesOf ls
      else nameValuesOf ls := by
  unfold nameValuesOf
  by_cases hn : (startsWith l "Name".toList && !containsChar l '[') = true
  · simp only [List.filter_cons, hn, if_true, List.map_cons]
  · simp only [List.filter_cons, hn, Bool.false_eq_true, if_false]

theorem foldl_interpretEntryLine_appName (ls : List Str) :
    ∀ st : ParseState,
      (ls.foldl interpretEntryLine st).appName = (nameValuesOf ls).getLast?.getD st.appName := by
  induction ls with
  | nil => intro st; rfl
  | cons l ls ih =>
    intro st
    rw [List.foldl_cons, ih, interpretEntryLine_appName, nameValuesOf_cons]
    by_cases hn : (startsWith l "Name".toList && !containsChar l '[') = true
    · rw [if_pos hn, if_pos hn, getLast?_cons']
      rfl
    · rw [if_neg hn, if_neg hn]

theorem parseDesktopFile_appName (fileName content : Str) :
    (parseDesktopFile fileName content).appName = (nameValues content).getLast?.getD [] := by
  have h := foldl_loadDesktopFileStep_eq (readLines content)
    { mimetypes := [], appName := [], appId := fileName, iconName := [],
      inCorrectGroup := false, noDisplay := false }
  have h2 := congrArg ParseState.appName h
  simp only at h2
  unfold parseDesktopFile nameValues descriptorLines
  rw [h2, foldl_interpretEntryLine_appName]

/-- C16 (as amended): for every visible descriptor with an icon that declares a MIME type,
the display name that `loadDesktopFile` stores for the identity is the value of the last line
of the `[Desktop Entry]` section that starts with `Name` and holds no `[`; it is the identity
when there is no such line or that value is empty. -/
theorem loadDesktopFile_last_name_wins (db : QMimeDatabase) (w : Widget)
    (fileName content : Str)
    (hv : (parseDesktopFile fileName content).noDisplay = false)
    (hi : (parseDesktopFile fileName content).iconName ≠ [])
    (hm : (parseDesktopFile fileName content).mimetypes ≠ []) :
    QHash.value (loadDesktopFile db w fileName (some content)).m_applicationNames
        (parseDesktopFile fileName content).appId =
      match (nameValues content).getLast? with
      | none => (parseDesktopFile fileName content).appId
      | some v => if v = [] then (parseDesktopFile fileName content).appId else v := by
  simp only [loadDesktopFile]
  rw [(ingest_maps db w fileName _ hm).2.2, if_pos ⟨Or.inl hv, hi⟩, QHash.value_insert_self]
  unfold ParseState.displayName
  rw [parseDesktopFile_appName]
  cases (nameValues content).getLast? with
  | none => rfl
  | some v =>
    by_cases hv' : v = []
    · simp [hv']
    · simp [hv']

theorem loadDesktopFile_last_name_wins_witness :
    ((parseDesktopFile "n.desktop".toList
          "[Desktop Entry]\nName=First\nName=Second\nIcon=i\nMimeType=text/plain;\n".toList
        ).noDisplay = false ∧
      (parseDesktopFile "n.desktop".toList
          "[Desktop Entry]\nName=First\nName=Second\nIcon=i\nMimeType=text/plain;\n".toList
        ).iconName ≠ [] ∧
      (parseDesktopFile "n.desktop".toList
          "[Desktop Entry]\nName=First\nName=Second\nIcon=i\nMimeType=text/plain;\n".toList
        ).mimetypes ≠ []) ∧
    QHash.value (loadDesktopFile identityDb Widget.empty "n.desktop".toList
        (some "[Desktop Entry]\nName=First\nName=Second\nIcon=i\nMimeType=text/plain;\n".toList)
        ).m_applicationNames
        (parseDesktopFile "n.desktop".toList
          "[Desktop Entry]\nName=First\nName=Second\nIcon=i\nMimeType=text/plain;\n".toList).appId =
      match (nameValues
          "[Desktop Entry]\nName=First\nName=Second\nIcon=i\nMimeType=text/plain;\n".toList
        ).getLast? with
      | none => (parseDesktopFile "n.desktop".toList
          "[Desktop Entry]\nName=First\nName=Second\nIcon=i\nMimeType=text/plain;\n".toList).appId
      | some v =>
        if v = [] then (parseDesktopFile "n.desktop".toList
          "[Desktop Entry]\nName=First\nName=Second\nIcon=i\nMimeType=text/plain;\n".toList).appId
        else v :=
  ⟨⟨by decide, by decide, by decide⟩,
    loadDesktopFile_last_name_wins identityDb Widget.empty "n.desktop".toList
      "[Desktop Entry]\nName=First\nName=Second\nIcon=i\nMimeType=text/plain;\n".toList
      (by decide) (by decide) (by decide)⟩

/-- C16 (claim as stated fails): with the unqualified lines `Name=First` and `Name=Second`
in a visible descriptor that has an icon and the type `text/plain`, the stored display name is
`Second`, the value of the last line, not `First`. -/
theorem loadDesktopFile_last_name_wins_counterexample :
    nameValues "[Desktop Entry]\nName=First\nName=Second\nIcon=i\nMimeType=text/plain;\n".toList
      = ["First".toList, "Second".toList] ∧
    loadDesktopFile identityDb Widget.empty "n.desktop".toList
        (some "[Desktop Entry]\nName=First\nName=Second\nIcon=i\nMimeType=text/plain;\n".toList)
      = ⟨[("n.desktop".toList, "n.desktop".toList)], [("n.desktop".toList, "Second".toList)],
          [("n.desktop".toList, "i".toList)], [("n.desktop".toList, "text/plain".toList)],
          [("text".toList, ["n.desktop".toList])]⟩ := by
  decide

/-- C15 (as amended): for two descriptors that derive the same identity and each declare a
MIME type, the second one hidden (and the first one hidden as well, or not), loading the first
and then the second into the empty index leaves the stored desktop filename for that identity
equal to the first descriptor's filename. -/
theorem loadDesktopFile_first_hidden_wins (db : QMimeDatabase) (f1 c1 f2 c2 : Str)
    (hid : (parseDesktopFile f1 c1).appId = (parseDesktopFile f2 c2).appId)
    (h2 : (parseDesktopFile f2 c2).noDisplay = true)
    (hm1 : (parseDesktopFile f1 c1).mimetypes ≠ [])
    (hm2 : (parseDesktopFile f2 c2).mimetypes ≠ []) :
    QHash.value (loadDesktopFile db (loadDesktopFile db Widget.empty f1 (some c1)) f2
        (some c2)).m_desktopFileNames (parseDesktopFile f1 c1).appId = f1 := by
  simp only [loadDesktopFile]
  rw [(ingest_maps db _ f2 _ hm2).1, (ingest_maps db Widget.empty f1 _ hm1).1, ← hid]
  have he : QHash.contains Widget.empty.m_desktopFileNames (parseDesktopFile f1 c1).appId =
      false := rfl
  rw [if_pos (Or.inr he), if_neg (by simp [h2, QHash.contains_insert_self]),
    QHash.value_insert_self]

theorem loadDesktopFile_first_hidden_wins_witness :
    ((parseDesktopFile "one.desktop".toList
          "[Desktop Entry]\nExec=tool\nNoDisplay=true\nMimeType=text/plain;\n".toList).appId =
        (parseDesktopFile "two.desktop".toList
          "[Desktop Entry]\nExec=tool --two\nNoDisplay=true\nMimeType=text/html;\n".toList).appId ∧
      (parseDesktopFile "one.desktop".toList
          "[Desktop Entry]\nExec=tool\nNoDisplay=true\nMimeType=text/plain;\n".toList
        ).noDisplay = true ∧
      (parseDesktopFile "two.desktop".toList
          "[Desktop Entry]\nExec=tool --two\nNoDisplay=true\nMimeType=text/html;\n".toList
        ).noDisplay = true) ∧
    QHash.value (loadDesktopFile identityDb (loadDesktopFile identityDb Widget.empty
          "one.desktop".toList
          (some "[Desktop Entry]\nExec=tool\nNoDisplay=true\nMimeType=text/plain;\n".toList))
        "two.desktop".toList
        (some "[Desktop Entry]\nExec=tool --two\nNoDisplay=true\nMimeType=text/html;\n".toList)
        ).m_desktopFileNames
        (parseDesktopFile "one.desktop".toList
          "[Desktop Entry]\nExec=tool\nNoDisplay=true\nMimeType=text/plain;\n".toList).appId =
      "one.desktop".toList :=
  ⟨⟨by decide, by decide, by decide⟩,
    loadDesktopFile_first_hidden_wins identityDb "one.desktop".toList
      "[Desktop Entry]\nExec=tool\nNoDisplay=true\nMimeType=text/plain;\n".toList
      "two.desktop".toList
      "[Desktop Entry]\nExec=tool --two\nNoDisplay=true\nMimeType=text/html;\n".toList
      (by decide) (by decide) (by decide) (by decide)⟩

/-- C15 (claim as stated fails): two hidden descriptors `one.desktop` and `two.desktop` for
the identity `tool`, each with a resolvable MIME type: after loading the first and then the
second into the empty index the stored filename is `one.desktop`, not the latest one. -/
theorem loadDesktopFile_first_hidden_wins_counterexample :
    ((parseDesktopFile "one.desktop".toList
          "[Desktop Entry]\nExec=tool\nNoDisplay=true\nMimeType=text/plain;\n".toList) =
        ⟨["text/plain".toList], [], "tool".toList, [], true, true⟩ ∧
      (parseDesktopFile "two.desktop".toList
          "[Desktop Entry]\nExec=tool --two\nNoDisplay=true\nMimeType=text/html;\n".toList) =
        ⟨["text/html".toList], [], "tool".toList, [], true, true⟩) ∧
    loadDesktopFile identityDb (loadDesktopFile identityDb Widget.empty
          "one.desktop".toList
          (some "[Desktop Entry]\nExec=tool\nNoDisplay=true\nMimeType=text/plain;\n".toList))
        "two.desktop".toList
        (some "[Desktop Entry]\nExec=tool --two\nNoDisplay=true\nMimeType=text/html;\n".toList) =
      ⟨[("tool".toList, "one.desktop".toList)], [], [],
        [("tool".toList, "text/html".toList), ("tool".toList, "text/plain".toList)],
        [("text".toList, ["tool".toList])]⟩ := by
  decide

theorem lookup_filter_ne {V : Type} (m : QHash V) (k k' : Str) (h : k' ≠ k) :
    List.lookup k' (m.filter (fun p => p.1 ≠ k)) = List.lookup k' m := by
  induction m with
  | nil => rfl
  | cons a as ih =>
    obtain ⟨x, v⟩ := a
    by_cases hx : x = k
    · subst hx
      have hne : (k' == x) = false := by simpa using h
      rw [List.filter_cons_of_neg (by simp), List.lookup_cons, hne]
      exact ih
    · rw [List.filter_cons_of_pos (by simpa using hx), List.lookup_cons, List.lookup_cons, ih]

theorem QHash.lookup_insert {V : Type} (m : QHash V) (k k' : Str) (v : V) :
    List.lookup k' (QHash.insert m k v) = if k' = k then some v else List.lookup k' m := by
  unfold QHash.insert
  by_cases h : k' = k
  · subst h
    simp [List.lookup_cons]
  · have hne : (k' == k) = false := by simpa using h
    rw [List.lookup_cons, hne, if_neg h]
    exact lookup_filter_ne m k k' h

theorem QHash.value_insert {V : Type} [Inhabited V] (m : QHash V) (k k' : Str) (v : V) :
    QHash.value (QHash.insert m k v) k' = if k' = k then v else QHash.value m k' := by
  unfold QHash.value
  rw [QHash.lookup_insert]
  by_cases h : k' = k <;> simp [h]

theorem QHash.contains_insert {V : Type} (m : QHash V) (k k' : Str) (v : V) :
    QHash.contains (QHash.insert m k v) k' = (decide (k' = k) || QHash.contains m k') := by
  unfold QHash.contains
  rw [QHash.lookup_insert]
  by_cases h : k' = k <;> simp [h]

theorem mem_of_lookup {V : Type} (m : QHash V) (k : Str) (v : V)
    (h : List.lookup k m = some v) : (k, v) ∈ m := by
  induction m with
  | nil => simp at h
  | cons a as ih =>
    obtain ⟨x, y⟩ := a
    rw [List.lookup_cons] at h
    by_cases hx : k = x
    · subst hx
      simp only [beq_self_eq_true, Option.some.injEq] at h
      subst h
      exact List.mem_cons_self _ _
    · have hne : (k == x) = false := by simpa using hx
      rw [hne] at h
      exact List.mem_cons_of_mem _ (ih h)

theorem QSet.mem_insert (s : List Str) (x y : Str) : x ∈ QSet.insert s y ↔ x ∈ s ∨ x = y := by
  unfold QSet.insert
  by_cases h : y ∈ s
  · rw [if_pos h]
    constructor
    · exact Or.inl
    · rintro (h1 | h1)
      · exact h1
      · rw [h1]; exact h
  · rw [if_neg h]
    simp

theorem loadMimeType_cases (db : QMimeDatabase) (appId : Str) (w : Widget) (t : Str) :
    loadMimeType db appId w t = w ∨
      ((split '/' (db.mimeTypeForName (qtrimmed t)).name).length = 2 ∧
        loadMimeType db appId w t =
          { w with
            m_applications :=
              QHash.insert w.m_applications
                (qtrimmed ((split '/' (db.mimeTypeForName (qtrimmed t)).name).getD 0 []))
                (QSet.insert (QHash.value w.m_applications
                  (qtrimmed ((split '/' (db.mimeTypeForName (qtrimmed t)).name).getD 0 [])))
                  appId)
            m_supportedMimetypes :=
              (appId, (db.mimeTypeForName (qtrimmed t)).name) :: w.m_supportedMimetypes }) := by
  unfold loadMimeType
  simp only
  split_ifs with h1 h2 h3
  · exact Or.inl rfl
  · exact Or.inl rfl
  · exact Or.inl rfl
  · exact Or.inr ⟨by simpa using h3, rfl⟩

theorem loadDesktopFiles_induction_on (db : QMimeDatabase) (P : Widget → Prop)
    (files : List (Str × Option Str))
    (hstep : ∀ (w : Widget), ∀ f ∈ files, P w → P (loadDesktopFile db w f.1 f.2)) :
    ∀ w, P w → P (loadDesktopFiles db w files) := by
  induction files with
  | nil => intro w hw; exact hw
  | cons f fs ih =>
    intro w hw
    exact ih (fun w' f' hf' => hstep w' f' (List.mem_cons_of_mem _ hf')) _
      (hstep w f (List.mem_cons_self _ _) hw)

theorem recordDesktopFile_cited (w : Widget) (fileName : Str) (p : ParseState)
    (hf : fileName ≠ []) (hw : Cited w) :
    Cited (recordDesktopFile w fileName p) ∧
      QHash.contains (recordDesktopFile w fileName p).m_desktopFileNames p.appId = true := by
  obtain ⟨h1, _, _, h4, _⟩ := recordDesktopFile_fields w fileName p
  by_cases hc : p.noDisplay = false ∨ QHash.contains w.m_desktopFileNames p.appId = false
  · rw [if_pos hc] at h1
    refine ⟨⟨?_, ?_⟩, ?_⟩
    · intro kv hkv
      rw [h1] at hkv
      simp only [QHash.insert, List.mem_cons, List.mem_filter] at hkv
      rcases hkv with e | ⟨h, _⟩
      · rw [e]; exact hf
      · exact hw.1 kv h
    · intro q hq
      rw [h4] at hq
      rw [h1, QHash.contains_insert, hw.2 q hq, Bool.or_true]
    · rw [h1, QHash.contains_insert]
      simp
  · rw [if_neg hc] at h1
    refine ⟨⟨?_, ?_⟩, ?_⟩
    · intro kv hkv
      rw [h1] at hkv
      exact hw.1 kv hkv
    · intro q hq
      rw [h4] at hq
      rw [h1]
      exact hw.2 q hq
    · rw [h1]
      simp only [not_or, Bool.not_eq_false] at hc
      exact hc.2

theorem loadDesktopFile_cited (db : QMimeDatabase) (w : Widget) (fileName : Str)
    (file : Option Str) (hf : fileName ≠ []) (hw : Cited w) :
    Cited (loadDesktopFile db w fileName file) := by
  cases file with
  | none => exact hw
  | some content =>
    simp only [loadDesktopFile]
    by_cases hm : (parseDesktopFile fileName content).mimetypes = []
    · simpa [ingest, hm] using hw
    · rw [ingest_of_ne db w fileName _ hm]
      obtain ⟨hc, hid⟩ := recordDesktopFile_cited w fileName (parseDesktopFile fileName content)
        hf hw
      obtain ⟨n1, _, _, n4, _⟩ := recordNameAndIcon_fields
        (recordDesktopFile w fileName (parseDesktopFile fileName content))
        (parseDesktopFile fileName content)
      obtain ⟨f1, _, _⟩ := foldl_loadMimeType_frame db (parseDesktopFile fileName content).appId
        (parseDesktopFile fileName content).mimetypes
        (recordNameAndIcon (recordDesktopFile w fileName (parseDesktopFile fileName content))
          (parseDesktopFile fileName content))
      refine ⟨?_, ?_⟩
      · intro kv hkv
        rw [f1, n1] at hkv
        exact hc.1 kv hkv
      · intro q hq
        rw [f1, n1]
        rcases foldl_loadMimeType_keys db _ _ _ q hq with h | h
        · rw [n4] at h
          exact hc.2 q h
        · rw [h]; exact hid

theorem cited_value (w : Widget) (hw : Cited w) :
    ∀ p ∈ w.m_supportedMimetypes, QHash.value w.m_desktopFileNames p.1 ≠ [] := by
  intro p hp
  have hc := hw.2 p hp
  unfold QHash.contains at hc
  unfold QHash.value
  cases hl : List.lookup p.1 w.m_desktopFileNames with
  | none => rw [hl] at hc; exact absurd hc (by decide)
  | some v => exact hw.1 (p.1, v) (mem_of_lookup _ _ _ hl)

/-- C18: after every scan that starts from the empty index and loads files with non-empty
names, every identity with an association is a key of the filename map with a non-empty
filename; so `setDefault` does not end in the unknown-application outcome for it, and the
constructor has no identity to warn about. -/
theorem loadDesktopFiles_no_orphan (db : QMimeDatabase) (files : List (Str × Option Str))
    (hfn : ∀ f ∈ files, f.1 ≠ []) :
    (∀ p ∈ (loadDesktopFiles db Widget.empty files).m_supportedMimetypes,
      QHash.contains (loadDesktopFiles db Widget.empty files).m_desktopFileNames p.1 = true ∧
        QHash.value (loadDesktopFiles db Widget.empty files).m_desktopFileNames p.1 ≠ [] ∧
        ∀ (sel unsel : List Str) (file : MimeAppsFile),
          (setDefault db (loadDesktopFiles db Widget.empty files).m_desktopFileNames p.1 sel
            unsel file).1 ≠ SetDefaultResult.unknownApplication) ∧
      missingDesktopFiles (loadDesktopFiles db Widget.empty files) = [] := by
  have hc : Cited (loadDesktopFiles db Widget.empty files) := by
    apply loadDesktopFiles_induction_on db Cited files
    · intro w f hf hw
      exact loadDesktopFile_cited db w f.1 f.2 (hfn f hf) hw
    · exact ⟨by simp [Widget.empty], by simp [Widget.empty]⟩
  constructor
  · intro p hp
    have hv := cited_value _ hc p hp
    refine ⟨hc.2 p hp, hv, ?_⟩
    intro sel unsel file
    unfold setDefault
    simp only [List.isEmpty_iff, hv, if_false]
    split_ifs <;> simp
  · unfold missingDesktopFiles
    rw [List.filter_eq_nil_iff]
    intro k hk
    rw [List.mem_dedup, List.mem_map] at hk
    obtain ⟨p, hp, rfl⟩ := hk
    simp [hc.2 p hp]

theorem loadDesktopFiles_no_orphan_witness :
    (∀ f ∈ [("a.desktop".toList, some aDesktop), ("b.desktop".toList, some bDesktop)],
      f.1 ≠ []) ∧
    missingDesktopFiles (loadDesktopFiles identityDb Widget.empty
      [("a.desktop".toList, some aDesktop), ("b.desktop".toList, some bDesktop)]) = [] :=
  ⟨by decide,
    (loadDesktopFiles_no_orphan identityDb
      [("a.desktop".toList, some aDesktop), ("b.desktop".toList, some bDesktop)]
      (by decide)).2⟩
theorem loadMimeType_mirrored (db : QMimeDatabase) (appId : Str) (w : Widget) (t : Str)
    (hw : Mirrored w) : Mirrored (loadMimeType db appId w t) := by
  rcases loadMimeType_cases db appId w t with h | ⟨hlen, h⟩
  · rw [h]; exact hw
  · rw [h]
    have hcat : categoryOf (db.mimeTypeForName (qtrimmed t)).name =
        some (qtrimmed ((split '/' (db.mimeTypeForName (qtrimmed t)).name).getD 0 [])) := by
      simp [categoryOf, hlen]
    intro a c
    simp only [QHash.value_insert, List.mem_cons, Prod.mk.injEq]
    by_cases hc : c = qtrimmed ((split '/' (db.mimeTypeForName (qtrimmed t)).name).getD 0 [])
    · rw [if_pos hc, QSet.mem_insert, ← hc, hw a c]
      constructor
      · rintro (⟨name, hn, hcn⟩ | e)
        · exact ⟨name, Or.inr hn, hcn⟩
        · exact ⟨_, Or.inl ⟨e, rfl⟩, by rw [hcat, hc]⟩
      · rintro ⟨name, (⟨e, _⟩ | hn), hcn⟩
        · exact Or.inr e
        · exact Or.inl ⟨name, hn, hcn⟩
    · rw [if_neg hc, hw a c]
      constructor
      · rintro ⟨name, hn, hcn⟩
        exact ⟨name, Or.inr hn, hcn⟩
      · rintro ⟨name, (⟨_, e⟩ | hn), hcn⟩
        · exfalso
          rw [e, hcat] at hcn
          exact hc (Option.some.inj hcn).symm
        · exact ⟨name, hn, hcn⟩

theorem foldl_loadMimeType_mirrored (db : QMimeDatabase) (appId : Str) (ts : List Str) :
    ∀ w : Widget, Mirrored w → Mirrored (ts.foldl (loadMimeType db appId) w) := by
  induction ts with
  | nil => intro w hw; exact hw
  | cons t ts ih =>
    intro w hw
    exact ih _ (loadMimeType_mirrored db appId w t hw)

theorem loadDesktopFile_mirrored (db : QMimeDatabase) (w : Widget) (fileName : Str)
    (file : Option Str) (hw : Mirrored w) : Mirrored (loadDesktopFile db w fileName file) := by
  cases file with
  | none => exact hw
  | some content =>
    simp only [loadDesktopFile]
    by_cases hm : (parseDesktopFile fileName content).mimetypes = []
    · simpa [ingest, hm] using hw
    · rw [ingest_of_ne db w fileName _ hm]
      apply foldl_loadMimeType_mirrored
      intro a c
      rw [recorded_applications, recorded_supported]
      exact hw a c

/-- C19: after every scan that starts from the empty index, an identity is a member of the
bucket of category `c` exactly when it has a recorded association whose canonical type has
the two-part form `c/subtype`, `c` being the text before the `/` without surrounding
whitespace. -/
theorem loadDesktopFiles_buckets_mirror (db : QMimeDatabase)
    (files : List (Str × Option Str)) (appId c : Str) :
    appId ∈ QHash.value (loadDesktopFiles db Widget.empty files).m_applications c ↔
      ∃ name, (appId, name) ∈ (loadDesktopFiles db Widget.empty files).m_supportedMimetypes ∧
        categoryOf name = some c := by
  have h : Mirrored (loadDesktopFiles db Widget.empty files) := by
    apply loadDesktopFiles_induction db Mirrored
    · intro a c
      have he : QHash.value Widget.empty.m_applications c = [] := rfl
      rw [he]
      simp [Widget.empty]
    · intro w f file hw
      exact loadDesktopFile_mirrored db w f file hw
  exact h appId c

/-! ## The section as it stands in the written file -/

theorem textLines_writeLines (ls : List Str) (rest : Str)
    (h : ∀ l ∈ ls, containsChar l '\n' = false) :
    textLines (writeLines ls ++ rest) = ls ++ textLines rest := by
  unfold textLines
  rw [readLines_writeLines ls rest h, List.map_append, List.map_map]
  congr 1
  induction ls with
  | nil => rfl
  | cons l ls ih =>
    rw [List.map_cons, ih (fun x hx => h x (List.mem_cons_of_mem _ hx))]
    congr 1
    exact takeWhile_ne_append '\n' l [] (h l (List.mem_cons_self _ _))

theorem textLines_headerText (rest : Str) :
    textLines (headerText ++ rest) = [] :: defaultApplicationsHeader :: textLines rest := by
  have e : headerText ++ rest = [] ++ '\n' :: (defaultApplicationsHeader ++ '\n' :: rest) := by
    simp [headerText_eq]
  unfold textLines
  rw [e, readLines_line [] _ (by decide),
    readLines_line defaultApplicationsHeader _ (by decide)]
  simp only [List.map_cons]
  congr 1

theorem containsChar_associationLine_newline (t f : Str)
    (ht : containsChar t '\n' = false) (hf : containsChar f '\n' = false) :
    containsChar (associationLine t f) '\n' = false := by
  simp only [containsChar, List.any_eq_false, decide_eq_true_eq] at ht hf ⊢
  intro x hx
  simp only [associationLine, List.mem_append, List.mem_cons] at hx
  rcases hx with h | h | h
  · exact ht x h
  · rw [h]; decide
  · exact hf x h

/-- The section that stands in the file written by `setDefault`, when neither the selected
names nor the recorded filename hold a line break: the lines handed to the file, up to the
first of them that is a section header. -/
theorem writtenSection_setDefault (db : QMimeDatabase) (names : QHash Str) (appName : Str)
    (sel unsel : List Str) (file : MimeAppsFile)
    (hf : QHash.value names appName ≠ []) (hw : file.writable = true)
    (hfn : containsChar (QHash.value names appName) '\n' = false)
    (hnl : ∀ t ∈ sel, containsChar t '\n' = false) :
    (setDefault db names appName sel unsel file).1 = SetDefaultResult.success ∧
      writtenSection (setDefault db names appName sel unsel file).2 =
        defaultSectionLines true (setDefaultSection db names appName sel unsel file) := by
  rw [setDefault_written db names appName sel unsel file hf hw]
  refine ⟨rfl, ?_⟩
  obtain ⟨hC, hA⟩ := setDefaultExisting_clean db sel unsel file
  have hS : ∀ l ∈ setDefaultSection db names appName sel unsel file,
      containsChar l '\n' = false := by
    intro l hl
    unfold setDefaultSection at hl
    rcases List.mem_append.mp hl with h | h
    · exact (hA l h).1.2.2
    · obtain ⟨t, ht, rfl⟩ := List.mem_map.mp h
      exact containsChar_associationLine_newline t _ (hnl t ht) hfn
  have htext : textLines (writeLines (setDefaultExisting db sel unsel file).existingContent ++
        headerText ++ writeLines (setDefaultSection db names appName sel unsel file)) =
      (setDefaultExisting db sel unsel file).existingContent ++
        ([] :: defaultApplicationsHeader ::
          setDefaultSection db names appName sel unsel file) := by
    have e : writeLines (setDefaultExisting db sel unsel file).existingContent ++
          headerText ++ writeLines (setDefaultSection db names appName sel unsel file) =
        writeLines (setDefaultExisting db sel unsel file).existingContent ++
          (headerText ++
            (writeLines (setDefaultSection db names appName sel unsel file) ++ [])) := by
      simp [List.append_assoc]
    rw [e, textLines_writeLines _ _ (fun l hl => (hC l hl).1.2.2), textLines_headerText,
      textLines_writeLines _ _ hS]
    simp [textLines, readLines]
  simp only [writtenSection]
  rw [htext, (outsideLines_append _ _ (fun c hc => (hC c hc).2)).2]
  have h1 : isHeader ([] : Str) = false := by decide
  simp [defaultSectionLines, h1, defaultApplicationsHeader_isHeader]
theorem isHeader_associationLine (t f : Str) (hbr : startsWith t ['['] = false) :
    isHeader (associationLine t f) = false := by
  cases t with
  | nil => simp [associationLine, isHeader, startsWith, List.isPrefixOf]
  | cons a r => simpa [associationLine, isHeader, startsWith, List.isPrefixOf] using hbr

/-- C1 (claim as stated fails): the input's section holds the lines `  keep me  ` and
` \t `, both non-empty and without `=`; the section of the written file holds neither of
them: the first is written as `keep me`, the second is dropped. -/
theorem setDefault_keeps_untouched_associations_counterexample :
    writtenSection ⟨some "[Default Applications]\n  keep me  \n \t \nx=y\n".toList, true⟩ =
      ["  keep me  ".toList, " \t ".toList, "x=y".toList] ∧
    writtenSection (setDefault identityDb [("app".toList, "app.desktop".toList)] "app".toList
        ["text/plain".toList] []
        ⟨some "[Default Applications]\n  keep me  \n \t \nx=y\n".toList, true⟩).2 =
      ["keep me".toList, "x=y".toList, "text/plain=app.desktop".toList] := by
  decide

/-- C2 (as amended): for every file that can be written, every application whose recorded
desktop filename `f` holds no line break and every set of selected canonical MIME types whose
names hold no `=` and no line break, do not start with `[` and have no leading or trailing
whitespace, `setDefault` succeeds and the `[Default Applications]` section that stands in the
written file has, for every selected type `t`, exactly one association line whose key is `t`,
and that line is `t=f`. -/
theorem setDefault_one_line_per_selected (db : QMimeDatabase) (names : QHash Str)
    (appName : Str) (sel unsel : List Str) (file : MimeAppsFile)
    (hf : QHash.value names appName ≠ []) (hw : file.writable = true) (hnd : sel.Nodup)
    (hfn : containsChar (QHash.value names appName) '\n' = false)
    (hsel : ∀ t ∈ sel, (db.mimeTypeForName t).name = t ∧ containsChar t '=' = false ∧
      trimmed t = t ∧ containsChar t '\n' = false ∧ startsWith t ['['] = false) :
    (setDefault db names appName sel unsel file).1 = SetDefaultResult.success ∧
      ∀ t ∈ sel,
        (writtenSection (setDefault db names appName sel unsel file).2).filter (hasKey t) =
          [associationLine t (QHash.value names appName)] := by
  obtain ⟨h1, h2⟩ := writtenSection_setDefault db names appName sel unsel file hf hw hfn
    (fun t ht => (hsel t ht).2.2.2.1)
  refine ⟨h1, ?_⟩
  have hnohdr : ∀ l ∈ setDefaultSection db names appName sel unsel file,
      isHeader l = false := by
    intro l hl
    unfold setDefaultSection at hl
    rcases List.mem_append.mp hl with h | h
    · exact ((setDefaultExisting_clean db sel unsel file).2 l h).2.1
    · obtain ⟨t, ht, rfl⟩ := List.mem_map.mp h
      exact isHeader_associationLine t _ (hsel t ht).2.2.2.2
  rw [h2, (insideLines_of_no_header _ hnohdr).2]
  exact (setDefaultSection_one_line_per_selected db names appName sel unsel file hf hw hnd
    (fun t ht => (hsel t ht).1) (fun t ht => ⟨(hsel t ht).2.1, (hsel t ht).2.2.1⟩)).2

theorem setDefault_one_line_per_selected_witness :
    (setDefault identityDb [("app".toList, "app.desktop".toList)] "app".toList
          ["text/plain".toList] []
          ⟨some "[Default Applications]\ntext/plain=b\n".toList, true⟩).1 =
        SetDefaultResult.success ∧
      ∀ t ∈ ["text/plain".toList],
        (writtenSection (setDefault identityDb [("app".toList, "app.desktop".toList)]
            "app".toList ["text/plain".toList] []
            ⟨some "[Default Applications]\ntext/plain=b\n".toList, true⟩).2).filter (hasKey t) =
          [associationLine t (QHash.value [("app".toList, "app.desktop".toList)] "app".toList)] :=
  setDefault_one_line_per_selected identityDb [("app".toList, "app.desktop".toList)]
    "app".toList ["text/plain".toList] []
    ⟨some "[Default Applications]\ntext/plain=b\n".toList, true⟩ (by decide) rfl (by decide)
    (by decide)
    (by
      intro t ht
      rw [List.mem_singleton] at ht
      subst ht
      exact ⟨rfl, by decide, by decide, by decide, by decide⟩)

/-- C2 (claim as stated fails): with the identity resolver every name is canonical, yet
the section of the written file has no line with the key `a=b` (the line written has the key
`a`), none with the key `a ` (the lines have the key `a`), none at all for the name `[x` (its
line is a section header), and for a filename with a line break the line of `text/plain` is
`text/plain=my`, not `t=f`. -/
theorem setDefault_one_line_per_selected_counterexample :
    (writtenSection (setDefault identityDb [("app".toList, "app.desktop".toList)]
          "app".toList ["a=b".toList] [] ⟨some [], true⟩).2 = ["a=b=app.desktop".toList] ∧
      (writtenSection (setDefault identityDb [("app".toList, "app.desktop".toList)]
          "app".toList ["a=b".toList] [] ⟨some [], true⟩).2).filter (hasKey "a=b".toList) =
        []) ∧
    (writtenSection (setDefault identityDb [("app".toList, "app.desktop".toList)]
          "app".toList ["a ".toList] []
          ⟨some "[Default Applications]\na =x.desktop\n".toList, true⟩).2 =
        ["a =x.desktop".toList, "a =app.desktop".toList] ∧
      (writtenSection (setDefault identityDb [("app".toList, "app.desktop".toList)]
          "app".toList ["a ".toList] []
          ⟨some "[Default Applications]\na =x.desktop\n".toList, true⟩).2).filter
          (hasKey "a ".toList) = []) ∧
    writtenSection (setDefault identityDb [("app".toList, "app.desktop".toList)]
        "app".toList ["[x".toList] [] ⟨some [], true⟩).2 = [] ∧
    (writtenSection (setDefault identityDb [("app".toList, "my\napp.desktop".toList)]
          "app".toList ["text/plain".toList] [] ⟨some [], true⟩).2 =
        ["text/plain=my".toList, "app.desktop".toList] ∧
      associationLine "text/plain".toList "my\napp.desktop".toList ∉
        writtenSection (setDefault identityDb [("app".toList, "my\napp.desktop".toList)]
          "app".toList ["text/plain".toList] [] ⟨some [], true⟩).2) := by
  decide

/-- C3 (as amended): for every file that can be written, every application whose recorded
desktop filename holds no line break, every set of deselected canonical MIME types and every
set of selected types that is disjoint from it and whose names hold no `=` and no line break
and have no leading or trailing whitespace, `setDefault` succeeds and no association line of
the `[Default Applications]` section that stands in the written file has a key in the
deselected set. -/
theorem setDefault_no_deselected_key (db : QMimeDatabase) (names : QHash Str)
    (appName : Str) (sel unsel : List Str) (file : MimeAppsFile)
    (hf : QHash.value names appName ≠ []) (hw : file.writable = true)
    (hfn : containsChar (QHash.value names appName) '\n' = false)
    (hcanon : ∀ d ∈ unsel, (db.mimeTypeForName d).name = d)
    (hplain : ∀ t ∈ sel, containsChar t '=' = false ∧ trimmed t = t ∧
      containsChar t '\n' = false)
    (hdisj : ∀ t ∈ sel, t ∉ unsel) :
    (setDefault db names appName sel unsel file).1 = SetDefaultResult.success ∧
      ∀ l ∈ writtenSection (setDefault db names appName sel unsel file).2, ∀ d ∈ unsel,
        hasKey d l = false := by
  obtain ⟨h1, h2⟩ := writtenSection_setDefault db names appName sel unsel file hf hw hfn
    (fun t ht => (hplain t ht).2.2)
  refine ⟨h1, ?_⟩
  intro l hl d hd
  rw [h2] at hl
  exact (setDefaultSection_no_deselected_key db names appName sel unsel file hf hw hcanon
    (fun t ht => ⟨(hplain t ht).1, (hplain t ht).2.1⟩) hdisj).2 l
    (mem_defaultSectionLines _ _ l hl).1 d hd

theorem setDefault_no_deselected_key_witness :
    (setDefault identityDb [("app".toList, "app.desktop".toList)] "app".toList
          ["text/plain".toList] ["text/html".toList]
          ⟨some "[Default Applications]\ntext/html=b\nimage/png=c\n".toList, true⟩).1 =
        SetDefaultResult.success ∧
      ∀ l ∈ writtenSection (setDefault identityDb [("app".toList, "app.desktop".toList)]
          "app".toList ["text/plain".toList] ["text/html".toList]
          ⟨some "[Default Applications]\ntext/html=b\nimage/png=c\n".toList, true⟩).2,
        ∀ d ∈ ["text/html".toList], hasKey d l = false :=
  setDefault_no_deselected_key identityDb [("app".toList, "app.desktop".toList)]
    "app".toList ["text/plain".toList] ["text/html".toList]
    ⟨some "[Default Applications]\ntext/html=b\nimage/png=c\n".toList, true⟩ (by decide) rfl
    (by decide)
    (by intro d hd; rfl)
    (by
      intro t ht
      rw [List.mem_singleton] at ht
      subst ht
      exact ⟨by decide, by decide, by decide⟩)
    (by decide)

/-- C3 (claim as stated fails): in the section of the written file, a type that is both
selected and deselected has its new line; the selected name `a=b` gives a line with the
deselected key `a`; the selected name ` a` gives a line with the deselected key `a`; the
selected name `a`, line break, `text/html` gives the line `text/html=app.desktop`; and a
filename with a line break does the same. -/
theorem setDefault_no_deselected_key_counterexample :
    (writtenSection (setDefault identityDb [("app".toList, "app.desktop".toList)]
          "app".toList ["text/plain".toList] ["text/plain".toList] ⟨some [], true⟩).2 =
        ["text/plain=app.desktop".toList] ∧
      hasKey "text/plain".toList "text/plain=app.desktop".toList = true) ∧
    (writtenSection (setDefault identityDb [("app".toList, "app.desktop".toList)]
          "app".toList ["a=b".toList] ["a".toList] ⟨some [], true⟩).2 =
        ["a=b=app.desktop".toList] ∧
      hasKey "a".toList "a=b=app.desktop".toList = true) ∧
    (writtenSection (setDefault identityDb [("app".toList, "app.desktop".toList)]
          "app".toList [" a".toList] ["a".toList] ⟨some [], true⟩).2 =
        [" a=app.desktop".toList] ∧
      hasKey "a".toList " a=app.desktop".toList = true) ∧
    (writtenSection (setDefault identityDb [("app".toList, "app.desktop".toList)]
          "app".toList ["a\ntext/html".toList] ["text/html".toList] ⟨some [], true⟩).2 =
        ["a".toList, "text/html=app.desktop".toList] ∧
      hasKey "text/html".toList "text/html=app.desktop".toList = true) ∧
    (writtenSection (setDefault identityDb [("app".toList, "x\ntext/html=y".toList)]
          "app".toList ["text/plain".toList] ["text/html".toList] ⟨some [], true⟩).2 =
        ["text/plain=x".toList, "text/html=y".toList] ∧
      hasKey "text/html".toList "text/html=y".toList = true) := by
  decide

theorem defaultSectionLines_append_inside (A X : List Str) (hA : ∀ a ∈ A, isHeader a = false) :
    defaultSectionLines true (A ++ X) = A ++ defaultSectionLines true X := by
  induction A with
  | nil => rfl
  | cons a as ih =>
    have ha : isHeader a = false := hA a (List.mem_cons_self _ _)
    have ih' := ih (fun x hx => hA x (List.mem_cons_of_mem _ hx))
    simp [defaultSectionLines, ha, ih']

/-- The section that stands in the file written by `setDefault` begins with the kept
associations; what follows comes from the text written for the selected types. -/
theorem writtenSection_setDefault_kept (db : QMimeDatabase) (names : QHash Str)
    (appName : Str) (sel unsel : List Str) (file : MimeAppsFile)
    (hf : QHash.value names appName ≠ []) (hw : file.writable = true) :
    writtenSection (setDefault db names appName sel unsel file).2 =
      (setDefaultExisting db sel unsel file).existingAssociations ++
        defaultSectionLines true (textLines (writeLines
          (sel.map (fun t => associationLine t (QHash.value names appName))))) := by
  rw [setDefault_written db names appName sel unsel file hf hw]
  obtain ⟨hC, hA⟩ := setDefaultExisting_clean db sel unsel file
  have e : writeLines (setDefaultExisting db sel unsel file).existingContent ++
        headerText ++ writeLines (setDefaultSection db names appName sel unsel file) =
      writeLines (setDefaultExisting db sel unsel file).existingContent ++
        (headerText ++
          (writeLines (setDefaultExisting db sel unsel file).existingAssociations ++
            writeLines (sel.map (fun t => associationLine t (QHash.value names appName))))) := by
    simp [setDefaultSection, writeLines_append, List.append_assoc]
  simp only [writtenSection]
  rw [e, textLines_writeLines _ _ (fun l hl => (hC l hl).1.2.2), textLines_headerText,
    textLines_writeLines _ _ (fun l hl => (hA l hl).1.2.2),
    (outsideLines_append _ _ (fun c hc => (hC c hc).2)).2]
  have h1 : isHeader ([] : Str) = false := by decide
  simp only [defaultSectionLines, h1, defaultApplicationsHeader_isHeader, if_true,
    Bool.false_eq_true, if_false, decide_True]
  exact defaultSectionLines_append_inside _ _ (fun a ha => (hA a ha).2.1)

/-- C1 (as amended): for every existing `mimeapps.list` content, resolver, application with
a recorded desktop filename and pair of selected and deselected sets, what `setDefault` writes
below the `[Default Applications]` header is, in their original order, the lines of the input's
section that are not blank, each without its leading and trailing whitespace, that have no `=`
or whose canonical key is neither selected nor deselected, followed by the newly written lines,
and nothing else; and the section that stands in the written file begins with exactly those
lines of the input, ahead of whatever the newly written text holds. -/
theorem setDefault_keeps_untouched_associations (db : QMimeDatabase) (names : QHash Str)
    (appName : Str) (sel unsel : List Str) (content : Str)
    (hf : QHash.value names appName ≠ []) :
    setDefault db names appName sel unsel ⟨some content, true⟩ =
        (SetDefaultResult.success,
          ⟨some (writeLines (outsideLines false (documentLines content)) ++ headerText ++
            writeLines
              ((defaultSectionLines false (documentLines content)).filter
                  (untouched db sel unsel) ++
                sel.map (fun t => associationLine t (QHash.value names appName)))), true⟩) ∧
      writtenSection (setDefault db names appName sel unsel ⟨some content, true⟩).2 =
        (defaultSectionLines false (documentLines content)).filter (untouched db sel unsel) ++
          defaultSectionLines true (textLines (writeLines
            (sel.map (fun t => associationLine t (QHash.value names appName))))) := by
  constructor
  · rw [setDefault_written db names appName sel unsel _ hf rfl]
    simp [setDefaultSection, setDefaultExisting, setDefaultRead_eq]
  · rw [writtenSection_setDefault_kept db names appName sel unsel _ hf rfl]
    simp [setDefaultExisting, setDefaultRead_eq]

theorem setDefault_keeps_untouched_associations_witness :
    QHash.value [("app".toList, "app.desktop".toList)] "app".toList ≠ [] ∧
    writtenSection (setDefault identityDb [("app".toList, "app.desktop".toList)] "app".toList
        ["text/plain".toList] []
        ⟨some "[Default Applications]\n a=b \n\ntext/plain=c\nd\n".toList, true⟩).2 =
      (defaultSectionLines false
          (documentLines "[Default Applications]\n a=b \n\ntext/plain=c\nd\n".toList)).filter
          (untouched identityDb ["text/plain".toList] []) ++
        defaultSectionLines true (textLines (writeLines
          (["text/plain".toList].map (fun t => associationLine t
            (QHash.value [("app".toList, "app.desktop".toList)] "app".toList))))) :=
  ⟨by decide,
    (setDefault_keeps_untouched_associations identityDb
      [("app".toList, "app.desktop".toList)] "app".toList ["text/plain".toList] []
      "[Default Applications]\n a=b \n\ntext/plain=c\nd\n".toList (by decide)).2⟩

end SelectDefaultApplication
